import Mathlib

/-!
Shallow embedding of the in-memory full-text search engine
(`search_server.h` / `SearchServer` implementation file, `string_processing.cpp`,
`document.h`, `request_queue.h` / `request_queue.cpp`).

Modelling conventions:
* `std::string` is modelled as `List Char` (`Word`); code points are the
  `Char.toNat` values.
* `double` arithmetic is idealised as exact rational arithmetic (`ℚ`); the
  transcendental `std::log` is passed in as an explicit function parameter
  `lg : ℚ → ℚ` so that every definition stays executable.
* `std::map` / `std::set` are modelled as association lists / lists with
  first-match lookup and membership-preserving insertion.  No claim below
  depends on the key-sorted iteration order of the C++ containers.
* C++ exceptions (`std::invalid_argument`, `std::out_of_range`) are modelled
  with `Except EngineError`; a throwing call returns `.error e` and produces
  no new state, mirroring the fact that every throw in the source happens
  before any mutation.
-/

namespace SearchSrv

/-- A string of the C++ source, as its list of characters. -/
abbrev Word := List Char

/-- Enumeration `DocumentStatus` from `document.h`. -/
inductive DocumentStatus where
  | ACTUAL
  | IRRELEVANT
  | BANNED
  | REMOVED
deriving DecidableEq, Repr

/-- Struct `Document` from `document.h`: id, relevance, rating. -/
structure Document where
  id : Int
  relevance : ℚ
  rating : Int
deriving DecidableEq, Repr

/-- The error taxonomy of the engine: each `throw std::invalid_argument` /
`std::out_of_range` site of the source is mapped to one constructor. -/
inductive EngineError where
  | DuplicateOrInvalidId
  | InvalidText
  | InvalidMinusWord
  | UnknownDocument
deriving DecidableEq, Repr

/-- Constant `MAX_RESULT_DOCUMENT_COUNT = 5` from `document.h`. -/
def MAX_RESULT_DOCUMENT_COUNT : Nat := 5

/-- First-match association-list lookup, modelling `std::map::find` /
`std::map::at` / `count` (presence = `isSome`). -/
def alFind {α β : Type} [DecidableEq α] : List (α × β) → α → Option β
  | [], _ => none
  | e :: rest, k => if e.1 = k then some e.2 else alFind rest k

/-- The whitespace characters of `std::isspace` in the default locale, used by
`std::stringstream` extraction in `SplitIntoWords`. -/
def isSpaceChar (c : Char) : Bool :=
  c = ' ' ∨ c = '\t' ∨ c = '\n' ∨ c = Char.ofNat 11 ∨ c = Char.ofNat 12 ∨ c = '\r'

/-- Worker for `SplitIntoWords`: `cur` is the (reversed) token being read. -/
def splitIntoWordsGo : List Char → List Char → List Word
  | [], cur => if cur = [] then [] else [cur.reverse]
  | c :: rest, cur =>
    if isSpaceChar c then
      if cur = [] then splitIntoWordsGo rest []
      else cur.reverse :: splitIntoWordsGo rest []
    else splitIntoWordsGo rest (c :: cur)

/-- `SplitIntoWords` from `string_processing.cpp`: `stringstream` extraction,
i.e. the maximal whitespace-free runs of the text, in order. -/
def SplitIntoWords (text : Word) : List Word :=
  splitIntoWordsGo text []

/-- `IsValidWord` from `search_server.h`:
`none_of(word, [](char c){ return c >= '\0' && c < ' '; })`.
For the unsigned code points used here `c >= '\0'` is vacuous, which agrees
with the C++ behaviour on every byte (bytes above 127 are negative as signed
`char`, hence also accepted there). -/
def IsValidWord (word : Word) : Bool :=
  word.all fun c => !(decide (c.toNat < 32))

/-- Membership-preserving set insertion, modelling `std::set::insert`
(duplicates ignored).  The key-sorted order of `std::set` is irrelevant to
every claim, so new elements are appended. -/
def setInsert (l : List Word) (w : Word) : List Word :=
  if w ∈ l then l else l ++ [w]

/-- `MakeUniqueNonEmptyStrings` from `string_processing.h`: the distinct
non-empty strings of the input collection. -/
def MakeUniqueNonEmptyStrings (strings : List Word) : List Word :=
  strings.foldl (fun acc str => if str = [] then acc else setInsert acc str) []

/-- Struct `DocumentData` (private to `SearchServer`): rating and status. -/
structure DocumentData where
  rating : Int
  status : DocumentStatus
deriving DecidableEq, Repr

/-- The state of a `SearchServer` object: its four data members. -/
structure SearchServer where
  stop_words_ : List Word
  word_to_document_freqs_ : List (Word × List (Int × ℚ))
  documents_ : List (Int × DocumentData)
  document_ids : List Int
deriving DecidableEq, Repr

/-- The `SearchServer(StringContainer)` constructor: deduplicates the stop
words and validates each of them (`invalid_argument` on a control char). -/
def SearchServerCtor (stop_words : List Word) : Except EngineError SearchServer :=
  let sw := MakeUniqueNonEmptyStrings stop_words
  if sw.all IsValidWord then .ok ⟨sw, [], [], []⟩ else .error .InvalidText

/-- `IsStopWord`: membership in `stop_words_`. -/
def IsStopWord (s : SearchServer) (word : Word) : Bool :=
  decide (word ∈ s.stop_words_)

/-- `word_to_document_freqs_[word][document_id] += v` on a posting list:
`operator[]` default-constructs an absent entry as `0.0` and then adds `v`. -/
def bumpEntry : List (Int × ℚ) → Int → ℚ → List (Int × ℚ)
  | [], k, v => [(k, v)]
  | e :: rest, k, v =>
    if e.1 = k then (e.1, e.2 + v) :: rest else e :: bumpEntry rest k v

/-- `word_to_document_freqs_[word][document_id] += v` on the whole map. -/
def mapBump : List (Word × List (Int × ℚ)) → Word → Int → ℚ → List (Word × List (Int × ℚ))
  | [], w, id, v => [(w, bumpEntry [] id v)]
  | e :: rest, w, id, v =>
    if e.1 = w then (e.1, bumpEntry e.2 id v) :: rest else e :: mapBump rest w id v

/-- `document_to_relevance.erase(document_id)` (`std::map::erase` by key). -/
def eraseEntry (l : List (Int × ℚ)) (k : Int) : List (Int × ℚ) :=
  l.filter fun e => !(decide (e.1 = k))

/-- `SplitIntoWordsNoStop`: tokenizes, throws `InvalidText` on the first
invalid token, and drops stop words. -/
def SplitIntoWordsNoStopGo (s : SearchServer) : List Word → Except EngineError (List Word)
  | [] => .ok []
  | w :: rest =>
    if ¬ IsValidWord w then .error .InvalidText
    else
      match SplitIntoWordsNoStopGo s rest with
      | .error e => .error e
      | .ok ws => .ok (if IsStopWord s w then ws else w :: ws)

/-- `SplitIntoWordsNoStop` from the `SearchServer` implementation file. -/
def SplitIntoWordsNoStop (s : SearchServer) (text : Word) : Except EngineError (List Word) :=
  SplitIntoWordsNoStopGo s (SplitIntoWords text)

/-- `ComputeAverageRating`: 0 on an empty vector, otherwise the `int` sum
divided by the size with C++ (truncating) integer division. -/
def ComputeAverageRating (ratings : List Int) : Int :=
  if ratings = [] then 0 else Int.tdiv ratings.sum (ratings.length : Int)

/-- `AddDocument` from the `SearchServer` implementation file.  Throws
`DuplicateOrInvalidId` on a negative or already-present id before anything
else; then tokenizes (which may throw `InvalidText`); only then mutates.
When `words` is empty the C++ `inv_word_count` is `1.0/0` (= +inf) but is
never stored since the posting loop runs zero times; here `1/0 = 0` in `ℚ`
and it is equally unused. -/
def AddDocument (s : SearchServer) (document_id : Int) (document : Word)
    (status : DocumentStatus) (ratings : List Int) : Except EngineError SearchServer :=
  if document_id < 0 ∨ (alFind s.documents_ document_id).isSome then
    .error .DuplicateOrInvalidId
  else
    match SplitIntoWordsNoStop s document with
    | .error e => .error e
    | .ok words =>
      let inv_word_count : ℚ := 1 / (words.length : ℚ)
      .ok { s with
        word_to_document_freqs_ :=
          words.foldl (fun m w => mapBump m w document_id inv_word_count)
            s.word_to_document_freqs_,
        documents_ := s.documents_ ++ [(document_id, ⟨ComputeAverageRating ratings, status⟩)],
        document_ids := s.document_ids ++ [document_id] }

/-- `GetDocumentCount`: `documents_.size()`. -/
def GetDocumentCount (s : SearchServer) : Nat :=
  s.documents_.length

/-- `GetDocumentId`: `document_ids.at(index)`; `at` throws on a bad index,
modelled by `Option`. -/
def GetDocumentId (s : SearchServer) (index : Nat) : Option Int :=
  s.document_ids.get? index

/-- Struct `QueryWord`: the stripped token plus its classification flags. -/
structure QueryWord where
  data : Word
  is_minus : Bool
  is_stop : Bool
deriving DecidableEq, Repr

/-- `ParseQueryWord`: strips one leading `-`, rejects remaining invalid
characters (`InvalidText`), then rejects an empty or still-dash-leading
remainder (`InvalidMinusWord`).  (On an empty input `text[0]` reads the C++
terminating null, which is not `-`; the `match` below agrees.) -/
def ParseQueryWord (s : SearchServer) (text : Word) : Except EngineError QueryWord :=
  let p : Bool × Word :=
    match text with
    | '-' :: rest => (true, rest)
    | _ => (false, text)
  if ¬ IsValidWord p.2 then .error .InvalidText
  else if p.2 = [] ∨ p.2.head? = some '-' then .error .InvalidMinusWord
  else .ok ⟨p.2, p.1, IsStopWord s p.2⟩

/-- Struct `Query`: the plus- and minus-word sets of a parsed query. -/
structure Query where
  plus_words : List Word
  minus_words : List Word
deriving DecidableEq, Repr

/-- The loop body of `ParseQuery`: classify each token in order, dropping
stop words and inserting into the minus or plus set. -/
def ParseQueryGo (s : SearchServer) : List Word → Query → Except EngineError Query
  | [], q => .ok q
  | w :: rest, q =>
    match ParseQueryWord s w with
    | .error e => .error e
    | .ok qw =>
      ParseQueryGo s rest
        (if qw.is_stop then q
         else if qw.is_minus then { q with minus_words := setInsert q.minus_words qw.data }
         else { q with plus_words := setInsert q.plus_words qw.data })

/-- `ParseQuery` from the `SearchServer` implementation file. -/
def ParseQuery (s : SearchServer) (text : Word) : Except EngineError Query :=
  ParseQueryGo s (SplitIntoWords text) ⟨[], []⟩

/-- `ComputeWordInverseDocumentFreq`:
`log(GetDocumentCount() * 1.0 / word_to_document_freqs_.at(word).size())`.
Callers only invoke it for a present `word`; the `getD []` covers the
impossible absent case of `at`. -/
def ComputeWordInverseDocumentFreq (lg : ℚ → ℚ) (s : SearchServer) (word : Word) : ℚ :=
  lg ((GetDocumentCount s : ℚ) / (((alFind s.word_to_document_freqs_ word).getD []).length : ℚ))

/-- The body of the plus-word posting loop of `FindAllDocuments`: look up the
document's metadata (`documents_.at`; cannot fail for ids stored in postings
of a well-formed server, the absent case is modelled as a skip), consult the
predicate, and accumulate `term_freq * idf` for accepted documents. -/
def postingStep (s : SearchServer) (doc_pred : Int → DocumentStatus → Int → Bool)
    (idf : ℚ) (acc2 : List (Int × ℚ)) (e : Int × ℚ) : List (Int × ℚ) :=
  match alFind s.documents_ e.1 with
  | none => acc2
  | some info =>
    if doc_pred e.1 info.status info.rating then bumpEntry acc2 e.1 (e.2 * idf)
    else acc2

/-- One iteration of the plus-word loop of `FindAllDocuments`: skip words
absent from the index, otherwise fold `postingStep` over the posting list. -/
def plusWordStep (lg : ℚ → ℚ) (s : SearchServer)
    (doc_pred : Int → DocumentStatus → Int → Bool)
    (acc : List (Int × ℚ)) (word : Word) : List (Int × ℚ) :=
  match alFind s.word_to_document_freqs_ word with
  | none => acc
  | some posting =>
    posting.foldl (postingStep s doc_pred (ComputeWordInverseDocumentFreq lg s word)) acc

/-- One iteration of the minus-word loop of `FindAllDocuments`: skip words
absent from the index, otherwise erase every document of the posting list
from the accumulator (the predicate is not consulted). -/
def minusWordStep (s : SearchServer) (acc : List (Int × ℚ)) (word : Word) :
    List (Int × ℚ) :=
  match alFind s.word_to_document_freqs_ word with
  | none => acc
  | some posting => posting.foldl (fun acc2 e => eraseEntry acc2 e.1) acc

/-- `FindAllDocuments`: accumulate `term_freq * idf` over plus-word postings
for documents accepted by the predicate, then unconditionally erase every
document of every minus-word posting, then materialize `(id, relevance,
rating)` triples. -/
def FindAllDocuments (lg : ℚ → ℚ) (s : SearchServer) (query : Query)
    (doc_pred : Int → DocumentStatus → Int → Bool) : List Document :=
  let document_to_relevance : List (Int × ℚ) :=
    query.plus_words.foldl (plusWordStep lg s doc_pred) []
  let after_minus : List (Int × ℚ) :=
    query.minus_words.foldl (minusWordStep s) document_to_relevance
  after_minus.map fun e =>
    { id := e.1, relevance := e.2,
      rating := ((alFind s.documents_ e.1).map DocumentData.rating).getD 0 }

/-- The tie-break threshold of the sort comparator:
`std::numeric_limits<double>::epsilon()` is 2 ^ (-52). -/
def dblEpsilon : ℚ := 1 / 2 ^ 52

/-- The comparator passed to `std::sort` in `FindTopDocuments`: by rating when
the relevances differ by less than machine epsilon, else by relevance. -/
def docComp (lhs rhs : Document) : Bool :=
  if |lhs.relevance - rhs.relevance| < dblEpsilon then decide (lhs.rating > rhs.rating)
  else decide (lhs.relevance > rhs.relevance)

/-- One insertion step of the sorting model for `std::sort`. -/
def insertSorted (x : Document) : List Document → List Document
  | [] => [x]
  | y :: ys => if docComp x y then x :: y :: ys else y :: insertSorted x ys

/-- `std::sort(matched_documents, docComp)`, modelled as insertion sort (the
standard library algorithm is unspecified; any comparison sort has the
adjacent-pair ordering and permutation properties used below). -/
def sortDocuments (l : List Document) : List Document :=
  l.foldr insertSorted []

/-- The template `FindTopDocuments(raw_query, predicate)` from
`search_server.h`: validate, parse, gather, sort, truncate to 5. -/
def FindTopDocuments (lg : ℚ → ℚ) (s : SearchServer) (raw_query : Word)
    (predict : Int → DocumentStatus → Int → Bool) : Except EngineError (List Document) :=
  if ¬ IsValidWord raw_query then .error .InvalidText
  else
    match ParseQuery s raw_query with
    | .error e => .error e
    | .ok query =>
      .ok ((sortDocuments (FindAllDocuments lg s query predict)).take MAX_RESULT_DOCUMENT_COUNT)

/-- The status overload of `FindTopDocuments`: fixes the predicate to
`doc_status == status` (after its own validity check, which the template
overload repeats). -/
def FindTopDocumentsByStatus (lg : ℚ → ℚ) (s : SearchServer) (raw_query : Word)
    (status : DocumentStatus) : Except EngineError (List Document) :=
  if ¬ IsValidWord raw_query then .error .InvalidText
  else FindTopDocuments lg s raw_query fun _ doc_status _ => decide (doc_status = status)

/-- Presence test `word_to_document_freqs_.count(word) != 0 &&
word_to_document_freqs_.at(word).count(document_id) != 0`. -/
def hasPosting (s : SearchServer) (w : Word) (id : Int) : Bool :=
  match alFind s.word_to_document_freqs_ w with
  | none => false
  | some posting => (alFind posting id).isSome

/-- `MatchDocument`: validate and parse the query, collect the plus words
present in the document, clear the list if any minus word is present, and
pair with the status from `documents_.at(document_id)` (which throws on an
unknown id: `UnknownDocument`). -/
def MatchDocument (s : SearchServer) (raw_query : Word) (document_id : Int) :
    Except EngineError (List Word × DocumentStatus) :=
  if ¬ IsValidWord raw_query then .error .InvalidText
  else
    match ParseQuery s raw_query with
    | .error e => .error e
    | .ok query =>
      let matched_words := query.plus_words.filter fun w => hasPosting s w document_id
      let cleared :=
        if query.minus_words.any (fun w => hasPosting s w document_id) then []
        else matched_words
      match alFind s.documents_ document_id with
      | none => .error .UnknownDocument
      | some info => .ok (cleared, info.status)

/-- Struct `QueryResult` from `request_queue.h`. -/
structure QueryResult where
  timestamp : Nat
  results : Int
deriving DecidableEq, Repr

/-- The state of a `RequestQueue` (the `const SearchServer&` member is a
borrow used only to delegate `AddFindRequest`, carried separately below). -/
structure RequestQueue where
  requests_ : List QueryResult
  no_results_requests_ : Int
  current_time_ : Nat
deriving DecidableEq, Repr

/-- Constant `min_in_day_ = 1440` from `request_queue.h`. -/
def min_in_day_ : Nat := 1440

/-- The `RequestQueue` constructor: empty deque, zero counter, time 0. -/
def RequestQueueCtor : RequestQueue := ⟨[], 0, 0⟩

/-- The eviction loop of `AddRequest`: pop front entries whose age at time `t`
has reached `min_in_day_`, decrementing the zero-result counter for each
popped zero-result entry. -/
def dropOldGo (t : Nat) : List QueryResult → Int → List QueryResult × Int
  | [], n => ([], n)
  | e :: rest, n =>
    if min_in_day_ ≤ t - e.timestamp then
      dropOldGo t rest (if e.results = 0 then n - 1 else n)
    else (e :: rest, n)

/-- `RequestQueue::AddRequest` from `request_queue.cpp`: advance the clock,
evict expired entries, append the new entry, update the counter. -/
def AddRequest (rq : RequestQueue) (results_num : Int) : RequestQueue :=
  let t := rq.current_time_ + 1
  let pr := dropOldGo t rq.requests_ rq.no_results_requests_
  { requests_ := pr.1 ++ [⟨t, results_num⟩],
    no_results_requests_ := if results_num = 0 then pr.2 + 1 else pr.2,
    current_time_ := t }

/-- `GetNoResultRequests`. -/
def GetNoResultRequests (rq : RequestQueue) : Int :=
  rq.no_results_requests_

/-- `AddFindRequest`: delegate to `FindTopDocuments`, record the result count
(a thrown query error propagates and leaves the queue untouched). -/
def AddFindRequest (lg : ℚ → ℚ) (srv : SearchServer) (rq : RequestQueue) (raw_query : Word)
    (document_predicate : Int → DocumentStatus → Int → Bool) :
    Except EngineError (List Document × RequestQueue) :=
  match FindTopDocuments lg srv raw_query document_predicate with
  | .error e => .error e
  | .ok result => .ok (result, AddRequest rq (result.length : Int))

/-- The request-log state reached after recording the given result counts in
order, starting from a fresh queue. -/
def runQueue (l : List Int) : RequestQueue :=
  l.foldl AddRequest RequestQueueCtor

/-- Well-formedness of a `SearchServer` state, maintained by the only mutator
`AddDocument` (established below): document ids are unique, every posting
list is non-empty with unique ids, and every posting entry carries a positive
term frequency and refers to a stored document. -/
def Wf (s : SearchServer) : Prop :=
  (s.documents_.map Prod.fst).Nodup ∧
  ∀ w posting, alFind s.word_to_document_freqs_ w = some posting →
    posting ≠ [] ∧ (posting.map Prod.fst).Nodup ∧
    ∀ e ∈ posting, 0 < e.2 ∧ e.1 ∈ s.documents_.map Prod.fst

/-- The invariant of the request log (claim C4): timestamps strictly increase,
every retained entry is younger than the window, and the zero-result counter
equals the number of retained zero-result entries. -/
def RQWf (rq : RequestQueue) : Prop :=
  List.Pairwise (fun a b => a.timestamp < b.timestamp) rq.requests_ ∧
  (∀ e ∈ rq.requests_,
    e.timestamp ≤ rq.current_time_ ∧ rq.current_time_ - e.timestamp < min_in_day_) ∧
  rq.no_results_requests_ =
    (rq.requests_.countP (fun e => decide (e.results = 0)) : Int)

/-! ### Concrete fixtures used to instantiate the results below -/

/-- A trivial stand-in for `std::log` (any `lg` with `1 ≤ q → 0 ≤ lg q` models
the non-negativity of `log` on arguments at least 1). -/
def lg0 : ℚ → ℚ := fun _ => 0

/-- The always-true document predicate. -/
def predTrue : Int → DocumentStatus → Int → Bool := fun _ _ _ => true

/-- A freshly constructed server with no stop words and no documents. -/
def emptyServer : SearchServer := ⟨[], [], [], []⟩

/-- The server state reached from `emptyServer` by adding document 0 (rating
samples empty, status `ACTUAL`) with text made of the two words `a` and `b`:
each gets term frequency 1/2 (verified by `rfl` below). -/
def serverAB : SearchServer :=
  ⟨[], [(['a'], [(0, 1 / 2)]), (['b'], [(0, 1 / 2)])], [(0, ⟨0, .ACTUAL⟩)], [0]⟩

/-! ### Generic fold and association-list lemmas -/

theorem foldl_induction {α β : Type} (f : α → β → α) (l : List β) (acc : α) (P : α → Prop)
    (h0 : P acc) (hstep : ∀ a, ∀ b ∈ l, P a → P (f a b)) : P (l.foldl f acc) := by
  induction l generalizing acc with
  | nil => exact h0
  | cons b rest ih =>
    exact ih (f acc b) (hstep acc b (by simp) h0)
      fun a c hc ha => hstep a c (by simp [hc]) ha

theorem alFind_eq_none {α β : Type} [DecidableEq α] (l : List (α × β)) (k : α) :
    alFind l k = none ↔ k ∉ l.map Prod.fst := by
  induction l with
  | nil => simp [alFind]
  | cons e rest ih =>
    by_cases h : e.1 = k <;> simp [alFind, h, ih, Ne.symm]

theorem alFind_isSome {α β : Type} [DecidableEq α] (l : List (α × β)) (k : α) :
    (alFind l k).isSome = true ↔ k ∈ l.map Prod.fst := by
  rw [← Decidable.not_iff_not, ← alFind_eq_none l k]
  cases alFind l k <;> simp

theorem mem_keys_bumpEntry (l : List (Int × ℚ)) (k : Int) (v : ℚ) (a : Int) :
    a ∈ (bumpEntry l k v).map Prod.fst ↔ a ∈ l.map Prod.fst ∨ a = k := by
  induction l with
  | nil => simp [bumpEntry]
  | cons e rest ih =>
    by_cases h : e.1 = k
    · subst h
      simp [bumpEntry]
      tauto
    · simp [bumpEntry, h, ih]
      tauto

theorem val_bumpEntry_nonneg {l : List (Int × ℚ)} {k : Int} {v : ℚ}
    (hl : ∀ e ∈ l, 0 ≤ e.2) (hv : 0 ≤ v) : ∀ e ∈ bumpEntry l k v, 0 ≤ e.2 := by
  induction l with
  | nil => simpa [bumpEntry] using hv
  | cons e rest ih =>
    by_cases h : e.1 = k
    · subst h
      simp only [bumpEntry, if_pos rfl]
      intro x hx
      rcases List.mem_cons.mp hx with h1 | h1
      · subst h1
        exact add_nonneg (hl e (by simp)) hv
      · exact hl x (by simp [h1])
    · simp only [bumpEntry, if_neg h]
      intro x hx
      rcases List.mem_cons.mp hx with h1 | h1
      · exact h1 ▸ hl e (by simp)
      · exact ih (fun y hy => hl y (by simp [hy])) x h1

theorem mem_eraseEntry (l : List (Int × ℚ)) (k : Int) (e : Int × ℚ) :
    e ∈ eraseEntry l k ↔ e ∈ l ∧ e.1 ≠ k := by
  simp [eraseEntry, List.mem_filter]

theorem mem_keys_eraseEntry (l : List (Int × ℚ)) (k : Int) (a : Int) :
    a ∈ (eraseEntry l k).map Prod.fst ↔ a ∈ l.map Prod.fst ∧ a ≠ k := by
  constructor
  · rintro h
    rcases List.mem_map.mp h with ⟨e, he, rfl⟩
    rcases (mem_eraseEntry l k e).mp he with ⟨h1, h2⟩
    exact ⟨List.mem_map.mpr ⟨e, h1, rfl⟩, h2⟩
  · rintro ⟨h1, h2⟩
    rcases List.mem_map.mp h1 with ⟨e, he, rfl⟩
    exact List.mem_map.mpr ⟨e, (mem_eraseEntry l k e).mpr ⟨he, h2⟩, rfl⟩

theorem eraseEntry_subset (l : List (Int × ℚ)) (k : Int) : eraseEntry l k ⊆ l :=
  fun e he => (List.mem_filter.mp he).1

/-! ### Tokenizer lemmas -/

theorem mem_splitIntoWordsGo_ne_nil :
    ∀ (l cur : List Char) (t : Word), t ∈ splitIntoWordsGo l cur → t ≠ [] := by
  intro l
  induction l with
  | nil =>
    intro cur t ht
    simp only [splitIntoWordsGo] at ht
    split at ht
    · simp at ht
    · rename_i hcur
      simp only [List.mem_singleton] at ht
      subst ht
      simpa using hcur
  | cons c rest ih =>
    intro cur t ht
    simp only [splitIntoWordsGo] at ht
    split at ht
    · split at ht
      · exact ih [] t ht
      · rename_i hcur
        rcases List.mem_cons.mp ht with h1 | h1
        · subst h1; simpa using hcur
        · exact ih [] t h1
    · exact ih (c :: cur) t ht

theorem mem_splitIntoWordsGo_chars :
    ∀ (l cur : List Char) (t : Word), t ∈ splitIntoWordsGo l cur →
      ∀ c ∈ t, c ∈ l ∨ c ∈ cur := by
  intro l
  induction l with
  | nil =>
    intro cur t ht c hc
    simp only [splitIntoWordsGo] at ht
    split at ht
    · simp at ht
    · simp only [List.mem_singleton] at ht
      subst ht
      exact Or.inr (List.mem_reverse.mp hc)
  | cons ch rest ih =>
    intro cur t ht c hc
    simp only [splitIntoWordsGo] at ht
    split at ht
    · split at ht
      · rcases ih [] t ht c hc with h | h
        · exact Or.inl (by simp [h])
        · simp at h
      · rcases List.mem_cons.mp ht with h1 | h1
        · subst h1
          exact Or.inr (List.mem_reverse.mp hc)
        · rcases ih [] t h1 c hc with h | h
          · exact Or.inl (by simp [h])
          · simp at h
    · rcases ih (ch :: cur) t ht c hc with h | h
      · exact Or.inl (by simp [h])
      · rcases List.mem_cons.mp h with h2 | h2
        · exact Or.inl (by simp [h2])
        · exact Or.inr h2

theorem mem_splitIntoWords_valid {text : Word} (hv : IsValidWord text = true) :
    ∀ t ∈ SplitIntoWords text, IsValidWord t = true := by
  intro t ht
  simp only [IsValidWord, List.all_eq_true] at hv ⊢
  intro c hc
  rcases mem_splitIntoWordsGo_chars text [] t ht c hc with h | h
  · exact hv c h
  · simp at h

/-! ### Sort lemmas -/

theorem docComp_asymm {a b : Document} (h : docComp a b = true) : docComp b a = false := by
  simp only [docComp] at h ⊢
  rw [abs_sub_comm b.relevance a.relevance]
  by_cases hlt : |a.relevance - b.relevance| < dblEpsilon
  · rw [if_pos hlt] at h ⊢
    simp at h ⊢
    omega
  · rw [if_neg hlt] at h ⊢
    simp at h ⊢
    linarith

theorem mem_insertSorted (x : Document) (l : List Document) (a : Document) :
    a ∈ insertSorted x l ↔ a = x ∨ a ∈ l := by
  induction l with
  | nil => simp [insertSorted]
  | cons y ys ih =>
    by_cases h : docComp x y
    · simp [insertSorted, h]
    · simp [insertSorted, h, ih]
      tauto

theorem chain'_insertSorted {x : Document} {l : List Document}
    (h : List.Chain' (fun a b => docComp b a = false) l) :
    List.Chain' (fun a b => docComp b a = false) (insertSorted x l) := by
  induction l with
  | nil => simp [insertSorted]
  | cons y ys ih =>
    cases hc : docComp x y with
    | true =>
      simp only [insertSorted, hc, if_true]
      refine List.chain'_cons'.mpr ⟨?_, h⟩
      intro z hz
      simp only [List.head?_cons, Option.mem_def, Option.some.injEq] at hz
      subst hz
      exact docComp_asymm hc
    | false =>
      have hxy : docComp x y = false := hc
      simp only [insertSorted, hc, Bool.false_eq_true, if_false]
      refine List.chain'_cons'.mpr ⟨?_, ih (List.Chain'.tail h)⟩
      intro z hz
      cases ys with
      | nil =>
        simp only [insertSorted, List.head?_cons, Option.mem_def, Option.some.injEq] at hz
        subst hz
        exact hxy
      | cons w ws =>
        cases hc2 : docComp x w with
        | true =>
          simp only [insertSorted, hc2, if_true, List.head?_cons, Option.mem_def,
            Option.some.injEq] at hz
          subst hz
          exact hxy
        | false =>
          simp only [insertSorted, hc2, Bool.false_eq_true, if_false, List.head?_cons,
            Option.mem_def, Option.some.injEq] at hz
          subst hz
          exact (List.chain'_cons.mp h).1

theorem chain'_sortDocuments (l : List Document) :
    List.Chain' (fun a b => docComp b a = false) (sortDocuments l) := by
  induction l with
  | nil => simp [sortDocuments]
  | cons x xs ih => exact chain'_insertSorted ih

theorem mem_sortDocuments (l : List Document) (a : Document) :
    a ∈ sortDocuments l ↔ a ∈ l := by
  induction l with
  | nil => simp [sortDocuments]
  | cons x xs ih =>
    simp only [sortDocuments, List.foldr_cons] at *
    rw [mem_insertSorted, ih, List.mem_cons]

/-! ### Accumulator lemmas for `FindAllDocuments` -/

theorem postingStep_none {s : SearchServer} {doc_pred : Int → DocumentStatus → Int → Bool}
    {idf : ℚ} {acc2 : List (Int × ℚ)} {e : Int × ℚ}
    (hd : alFind s.documents_ e.1 = none) :
    postingStep s doc_pred idf acc2 e = acc2 := by
  unfold postingStep
  rw [hd]

theorem postingStep_some {s : SearchServer} {doc_pred : Int → DocumentStatus → Int → Bool}
    {idf : ℚ} {acc2 : List (Int × ℚ)} {e : Int × ℚ} {info : DocumentData}
    (hd : alFind s.documents_ e.1 = some info) :
    postingStep s doc_pred idf acc2 e =
      if doc_pred e.1 info.status info.rating then bumpEntry acc2 e.1 (e.2 * idf)
      else acc2 := by
  unfold postingStep
  rw [hd]

theorem plusWordStep_none {lg : ℚ → ℚ} {s : SearchServer}
    {doc_pred : Int → DocumentStatus → Int → Bool} {acc : List (Int × ℚ)} {word : Word}
    (hf : alFind s.word_to_document_freqs_ word = none) :
    plusWordStep lg s doc_pred acc word = acc := by
  unfold plusWordStep
  rw [hf]

theorem plusWordStep_some {lg : ℚ → ℚ} {s : SearchServer}
    {doc_pred : Int → DocumentStatus → Int → Bool} {acc : List (Int × ℚ)} {word : Word}
    {posting : List (Int × ℚ)}
    (hf : alFind s.word_to_document_freqs_ word = some posting) :
    plusWordStep lg s doc_pred acc word =
      posting.foldl (postingStep s doc_pred (ComputeWordInverseDocumentFreq lg s word))
        acc := by
  unfold plusWordStep
  rw [hf]

theorem minusWordStep_none {s : SearchServer} {acc : List (Int × ℚ)} {word : Word}
    (hf : alFind s.word_to_document_freqs_ word = none) :
    minusWordStep s acc word = acc := by
  unfold minusWordStep
  rw [hf]

theorem minusWordStep_some {s : SearchServer} {acc : List (Int × ℚ)} {word : Word}
    {posting : List (Int × ℚ)}
    (hf : alFind s.word_to_document_freqs_ word = some posting) :
    minusWordStep s acc word = posting.foldl (fun acc2 e => eraseEntry acc2 e.1) acc := by
  unfold minusWordStep
  rw [hf]

theorem mem_keys_postingStep {s : SearchServer}
    {doc_pred : Int → DocumentStatus → Int → Bool} {idf : ℚ}
    {acc2 : List (Int × ℚ)} {e : Int × ℚ} {a : Int}
    (h : a ∈ (postingStep s doc_pred idf acc2 e).map Prod.fst) :
    a ∈ acc2.map Prod.fst ∨ a = e.1 := by
  rcases hd : alFind s.documents_ e.1 with _ | info
  · rw [postingStep_none hd] at h
    exact Or.inl h
  · rw [postingStep_some hd] at h
    split at h
    · exact (mem_keys_bumpEntry acc2 e.1 _ a).mp h
    · exact Or.inl h

theorem mem_keys_postingFold {s : SearchServer}
    {doc_pred : Int → DocumentStatus → Int → Bool} {idf : ℚ}
    (posting : List (Int × ℚ)) (acc : List (Int × ℚ)) (a : Int)
    (h : a ∈ (posting.foldl (postingStep s doc_pred idf) acc).map Prod.fst) :
    a ∈ acc.map Prod.fst ∨ a ∈ posting.map Prod.fst := by
  induction posting generalizing acc with
  | nil => exact Or.inl h
  | cons e rest ih =>
    rcases ih (postingStep s doc_pred idf acc e) h with h1 | h1
    · rcases mem_keys_postingStep h1 with h2 | h2
      · exact Or.inl h2
      · exact Or.inr (by simp [h2])
    · exact Or.inr (by simp [h1])

theorem val_postingFold_nonneg {s : SearchServer}
    {doc_pred : Int → DocumentStatus → Int → Bool} {idf : ℚ}
    {posting acc : List (Int × ℚ)}
    (hacc : ∀ e ∈ acc, 0 ≤ e.2) (hpos : ∀ e ∈ posting, 0 ≤ e.2 * idf) :
    ∀ e ∈ posting.foldl (postingStep s doc_pred idf) acc, 0 ≤ e.2 := by
  refine foldl_induction _ posting acc (fun l => ∀ e ∈ l, 0 ≤ e.2) hacc ?_
  intro a b hb ha
  rcases hd : alFind s.documents_ b.1 with _ | info
  · rw [postingStep_none hd]
    exact ha
  · rw [postingStep_some hd]
    split
    · exact val_bumpEntry_nonneg ha (hpos b hb)
    · exact ha

theorem mem_keys_plusFold {lg : ℚ → ℚ} {s : SearchServer}
    {doc_pred : Int → DocumentStatus → Int → Bool}
    (words : List Word) (acc : List (Int × ℚ)) (a : Int)
    (h : a ∈ (words.foldl (plusWordStep lg s doc_pred) acc).map Prod.fst) :
    a ∈ acc.map Prod.fst ∨
      ∃ w ∈ words, ∃ p, alFind s.word_to_document_freqs_ w = some p ∧
        a ∈ p.map Prod.fst := by
  induction words generalizing acc with
  | nil => exact Or.inl h
  | cons w rest ih =>
    rcases ih (plusWordStep lg s doc_pred acc w) h with h1 | h1
    · rcases hf : alFind s.word_to_document_freqs_ w with _ | posting
      · rw [plusWordStep_none hf] at h1
        exact Or.inl h1
      · rw [plusWordStep_some hf] at h1
        rcases mem_keys_postingFold posting acc a h1 with h2 | h2
        · exact Or.inl h2
        · exact Or.inr ⟨w, by simp, posting, hf, h2⟩
    · rcases h1 with ⟨w', hw', p, hp, hap⟩
      exact Or.inr ⟨w', by simp [hw'], p, hp, hap⟩

theorem idf_nonneg {lg : ℚ → ℚ} {s : SearchServer} {w : Word} {posting : List (Int × ℚ)}
    (hwf : Wf s) (hlg : ∀ q : ℚ, 1 ≤ q → 0 ≤ lg q)
    (hfind : alFind s.word_to_document_freqs_ w = some posting) :
    0 ≤ ComputeWordInverseDocumentFreq lg s w := by
  rcases hwf.2 w posting hfind with ⟨hne, hnd, hmem⟩
  unfold ComputeWordInverseDocumentFreq
  rw [hfind]
  apply hlg
  have hsub : posting.map Prod.fst ⊆ s.documents_.map Prod.fst :=
    fun a ha => by
      rcases List.mem_map.mp ha with ⟨e, he, rfl⟩
      exact (hmem e he).2
  have hlen : posting.length ≤ s.documents_.length := by
    have := (hnd.subperm hsub).length_le
    simpa using this
  have hpos : 0 < posting.length := List.length_pos.mpr hne
  rw [Option.getD_some, one_le_div (by exact_mod_cast hpos)]
  unfold GetDocumentCount
  exact_mod_cast hlen

theorem val_plusFold_nonneg {lg : ℚ → ℚ} {s : SearchServer}
    {doc_pred : Int → DocumentStatus → Int → Bool}
    (hwf : Wf s) (hlg : ∀ q : ℚ, 1 ≤ q → 0 ≤ lg q)
    (words : List Word) (acc : List (Int × ℚ)) (hacc : ∀ e ∈ acc, 0 ≤ e.2) :
    ∀ e ∈ words.foldl (plusWordStep lg s doc_pred) acc, 0 ≤ e.2 := by
  refine foldl_induction _ words acc (fun l => ∀ e ∈ l, 0 ≤ e.2) hacc ?_
  intro a w _ ha
  rcases hf : alFind s.word_to_document_freqs_ w with _ | posting
  · rw [plusWordStep_none hf]
    exact ha
  · rw [plusWordStep_some hf]
    refine val_postingFold_nonneg ha ?_
    intro e he
    exact mul_nonneg (le_of_lt ((hwf.2 w posting hf).2.2 e he).1)
      (idf_nonneg hwf hlg hf)

theorem plusFold_pred_congr {lg : ℚ → ℚ} {s : SearchServer}
    {doc_pred doc_pred' : Int → DocumentStatus → Int → Bool}
    (words : List Word) (acc : List (Int × ℚ))
    (hagree : ∀ w ∈ words, ∀ p, alFind s.word_to_document_freqs_ w = some p →
      ∀ e ∈ p, ∀ info, alFind s.documents_ e.1 = some info →
        doc_pred e.1 info.status info.rating = doc_pred' e.1 info.status info.rating) :
    words.foldl (plusWordStep lg s doc_pred) acc =
      words.foldl (plusWordStep lg s doc_pred') acc := by
  induction words generalizing acc with
  | nil => rfl
  | cons w rest ih =>
    simp only [List.foldl_cons]
    have hstep : plusWordStep lg s doc_pred acc w = plusWordStep lg s doc_pred' acc w := by
      rcases hf : alFind s.word_to_document_freqs_ w with _ | posting
      · rw [plusWordStep_none hf, plusWordStep_none hf]
      · rw [plusWordStep_some hf, plusWordStep_some hf]
        have hag := hagree w (by simp) posting hf
        clear hf
        induction posting generalizing acc with
        | nil => rfl
        | cons e prest pih =>
          simp only [List.foldl_cons]
          have he : postingStep s doc_pred (ComputeWordInverseDocumentFreq lg s w) acc e =
              postingStep s doc_pred' (ComputeWordInverseDocumentFreq lg s w) acc e := by
            rcases hd : alFind s.documents_ e.1 with _ | info
            · rw [postingStep_none hd, postingStep_none hd]
            · rw [postingStep_some hd, postingStep_some hd, hag e (by simp) info hd]
          rw [he]
          exact pih _ fun e' he' info hinfo => hag e' (by simp [he']) info hinfo
    rw [hstep]
    exact ih _ fun w' hw' p hp e he info hinfo =>
      hagree w' (by simp [hw']) p hp e he info hinfo

theorem mem_keys_eraseFold (posting : List (Int × ℚ)) (acc : List (Int × ℚ)) (a : Int) :
    a ∈ (posting.foldl (fun acc2 e => eraseEntry acc2 e.1) acc).map Prod.fst ↔
      a ∈ acc.map Prod.fst ∧ a ∉ posting.map Prod.fst := by
  induction posting generalizing acc with
  | nil => simp
  | cons e rest ih =>
    simp only [List.foldl_cons, ih, mem_keys_eraseEntry, List.map_cons, List.mem_cons]
    tauto

theorem mem_keys_minusFold {s : SearchServer}
    (words : List Word) (acc : List (Int × ℚ)) (a : Int) :
    a ∈ (words.foldl (minusWordStep s) acc).map Prod.fst ↔
      a ∈ acc.map Prod.fst ∧
        ∀ w ∈ words, ∀ p, alFind s.word_to_document_freqs_ w = some p →
          a ∉ p.map Prod.fst := by
  induction words generalizing acc with
  | nil => simp
  | cons w rest ih =>
    simp only [List.foldl_cons, ih]
    constructor
    · rintro ⟨h1, h2⟩
      rcases hf : alFind s.word_to_document_freqs_ w with _ | posting
      · rw [minusWordStep_none hf] at h1
        refine ⟨h1, ?_⟩
        intro w' hw' p hp
        rcases List.mem_cons.mp hw' with rfl | hw'
        · rw [hf] at hp; exact absurd hp (by simp)
        · exact h2 w' hw' p hp
      · rw [minusWordStep_some hf] at h1
        rcases (mem_keys_eraseFold posting acc a).mp h1 with ⟨h3, h4⟩
        refine ⟨h3, ?_⟩
        intro w' hw' p hp
        rcases List.mem_cons.mp hw' with rfl | hw'
        · rw [hf] at hp
          injection hp with hp
          subst hp
          exact h4
        · exact h2 w' hw' p hp
    · rintro ⟨h1, h2⟩
      refine ⟨?_, fun w' hw' p hp => h2 w' (by simp [hw']) p hp⟩
      rcases hf : alFind s.word_to_document_freqs_ w with _ | posting
      · rw [minusWordStep_none hf]
        exact h1
      · rw [minusWordStep_some hf]
        exact (mem_keys_eraseFold posting acc a).mpr ⟨h1, h2 w (by simp) posting hf⟩

theorem eraseFold_subset (posting : List (Int × ℚ)) (acc : List (Int × ℚ)) :
    posting.foldl (fun acc2 e => eraseEntry acc2 e.1) acc ⊆ acc := by
  refine foldl_induction _ posting acc (fun l => l ⊆ acc) (fun e he => he) ?_
  intro a b _ ha
  exact fun e he => ha (eraseEntry_subset a b.1 he)

theorem minusFold_subset {s : SearchServer} (words : List Word) (acc : List (Int × ℚ)) :
    words.foldl (minusWordStep s) acc ⊆ acc := by
  refine foldl_induction _ words acc (fun l => l ⊆ acc) (fun e he => he) ?_
  intro a w _ ha
  rcases hf : alFind s.word_to_document_freqs_ w with _ | posting
  · rw [minusWordStep_none hf]
    exact ha
  · rw [minusWordStep_some hf]
    exact fun e he => ha (eraseFold_subset posting a he)

/-! ### Lemmas about `FindAllDocuments` and `FindTopDocuments` -/

theorem mem_FindAllDocuments {lg : ℚ → ℚ} {s : SearchServer} {query : Query}
    {doc_pred : Int → DocumentStatus → Int → Bool} {d : Document}
    (h : d ∈ FindAllDocuments lg s query doc_pred) :
    d.id ∈ (query.minus_words.foldl (minusWordStep s)
      (query.plus_words.foldl (plusWordStep lg s doc_pred) [])).map Prod.fst := by
  unfold FindAllDocuments at h
  rcases List.mem_map.mp h with ⟨e, he, rfl⟩
  exact List.mem_map.mpr ⟨e, he, rfl⟩

theorem FindAllDocuments_minus_excluded {lg : ℚ → ℚ} {s : SearchServer} {query : Query}
    {doc_pred : Int → DocumentStatus → Int → Bool} {d : Document} {w : Word}
    {p : List (Int × ℚ)}
    (hw : w ∈ query.minus_words) (hp : alFind s.word_to_document_freqs_ w = some p)
    (h : d ∈ FindAllDocuments lg s query doc_pred) :
    d.id ∉ p.map Prod.fst := by
  have h1 := mem_FindAllDocuments h
  exact ((mem_keys_minusFold _ _ _).mp h1).2 w hw p hp

theorem FindAllDocuments_needs_plus {lg : ℚ → ℚ} {s : SearchServer} {query : Query}
    {doc_pred : Int → DocumentStatus → Int → Bool} {d : Document}
    (h : d ∈ FindAllDocuments lg s query doc_pred) :
    ∃ w ∈ query.plus_words, ∃ p, alFind s.word_to_document_freqs_ w = some p ∧
      d.id ∈ p.map Prod.fst := by
  have h1 := mem_FindAllDocuments h
  have h2 := ((mem_keys_minusFold _ _ _).mp h1).1
  rcases mem_keys_plusFold _ _ _ h2 with h3 | h3
  · simp at h3
  · exact h3

theorem FindAllDocuments_relevance_nonneg {lg : ℚ → ℚ} {s : SearchServer} {query : Query}
    {doc_pred : Int → DocumentStatus → Int → Bool} {d : Document}
    (hwf : Wf s) (hlg : ∀ q : ℚ, 1 ≤ q → 0 ≤ lg q)
    (h : d ∈ FindAllDocuments lg s query doc_pred) :
    0 ≤ d.relevance := by
  unfold FindAllDocuments at h
  rcases List.mem_map.mp h with ⟨e, he, rfl⟩
  have h1 : e ∈ query.plus_words.foldl (plusWordStep lg s doc_pred) [] :=
    minusFold_subset _ _ he
  exact val_plusFold_nonneg hwf hlg _ _ (by simp) e h1

theorem FindAllDocuments_pred_congr {lg : ℚ → ℚ} {s : SearchServer} {query : Query}
    {doc_pred doc_pred' : Int → DocumentStatus → Int → Bool}
    (hagree : ∀ w ∈ query.plus_words, ∀ p,
      alFind s.word_to_document_freqs_ w = some p →
      ∀ e ∈ p, ∀ info, alFind s.documents_ e.1 = some info →
        doc_pred e.1 info.status info.rating = doc_pred' e.1 info.status info.rating) :
    FindAllDocuments lg s query doc_pred = FindAllDocuments lg s query doc_pred' := by
  unfold FindAllDocuments
  rw [plusFold_pred_congr query.plus_words [] hagree]

theorem FindTopDocuments_ok_elim {lg : ℚ → ℚ} {s : SearchServer} {raw_query : Word}
    {predict : Int → DocumentStatus → Int → Bool} {docs : List Document}
    (h : FindTopDocuments lg s raw_query predict = .ok docs) :
    IsValidWord raw_query = true ∧
      ∃ query, ParseQuery s raw_query = .ok query ∧
        docs = (sortDocuments (FindAllDocuments lg s query predict)).take
          MAX_RESULT_DOCUMENT_COUNT := by
  unfold FindTopDocuments at h
  split at h
  · exact absurd h (by simp)
  · rename_i hvalid
    rcases hq : ParseQuery s raw_query with e | query
    · rw [hq] at h
      exact absurd h (by simp)
    · rw [hq] at h
      injection h with h
      exact ⟨by simpa using hvalid, query, rfl, h.symm⟩

theorem mem_FindTopDocuments {lg : ℚ → ℚ} {s : SearchServer} {raw_query : Word}
    {predict : Int → DocumentStatus → Int → Bool} {docs : List Document}
    {query : Query} {d : Document}
    (h : FindTopDocuments lg s raw_query predict = .ok docs)
    (hq : ParseQuery s raw_query = .ok query) (hd : d ∈ docs) :
    d ∈ FindAllDocuments lg s query predict := by
  rcases FindTopDocuments_ok_elim h with ⟨_, query', hq', hdocs⟩
  rw [hq] at hq'
  injection hq' with hq'
  subst hq'
  subst hdocs
  exact (mem_sortDocuments _ _).mp (List.take_subset _ _ hd)

/-! ### Query-parsing lemmas -/

theorem mem_setInsert_self (l : List Word) (w : Word) : w ∈ setInsert l w := by
  unfold setInsert
  split
  · assumption
  · simp

theorem subset_setInsert (l : List Word) (w : Word) : l ⊆ setInsert l w := by
  unfold setInsert
  split
  · exact fun a ha => ha
  · exact fun a ha => by simp [ha]

theorem IsValidWord_cons {c : Char} {r : Word} :
    IsValidWord (c :: r) = (!(decide (c.toNat < 32)) && IsValidWord r) := by
  simp [IsValidWord]

theorem ParseQueryWord_invalid {s : SearchServer} {t : Word}
    (h : IsValidWord t = false) : ParseQueryWord s t = .error .InvalidText := by
  cases t with
  | nil => simp [IsValidWord] at h
  | cons c r =>
    by_cases hc : c = '-'
    · subst hc
      have hr : IsValidWord r = false := by
        rw [IsValidWord_cons] at h
        simpa using h
      simp [ParseQueryWord, hr]
    · have harm : (ParseQueryWord s (c :: r)) =
          (if ¬ IsValidWord (c :: r) then .error .InvalidText
           else if (c :: r : Word) = [] ∨ (c :: r : Word).head? = some '-' then
             .error .InvalidMinusWord
           else .ok ⟨c :: r, false, IsStopWord s (c :: r)⟩) := by
        unfold ParseQueryWord
        cases c <;> simp_all [ParseQueryWord]
      rw [harm, if_pos (by simp [h])]

theorem ParseQueryWord_minus_arm {s : SearchServer} {r : Word} :
    ParseQueryWord s ('-' :: r) =
      (if ¬ IsValidWord r then .error .InvalidText
       else if r = [] ∨ r.head? = some '-' then .error .InvalidMinusWord
       else .ok ⟨r, true, IsStopWord s r⟩) := by
  rfl

theorem ParseQueryWord_plain_arm {s : SearchServer} {c : Char} {r : Word} (hc : c ≠ '-') :
    ParseQueryWord s (c :: r) =
      (if ¬ IsValidWord (c :: r) then .error .InvalidText
       else if (c :: r : Word) = [] ∨ (c :: r : Word).head? = some '-' then
         .error .InvalidMinusWord
       else .ok ⟨c :: r, false, IsStopWord s (c :: r)⟩) := by
  unfold ParseQueryWord
  cases c
  simp_all [Char.ext_iff]

theorem ParseQueryWord_malformed {s : SearchServer} {r : Word}
    (hv : IsValidWord ('-' :: r) = true) (hmal : r = [] ∨ r.head? = some '-') :
    ParseQueryWord s ('-' :: r) = .error .InvalidMinusWord := by
  have hr : IsValidWord r = true := by
    rw [IsValidWord_cons] at hv
    exact (Bool.and_eq_true_iff.mp hv).2
  rw [ParseQueryWord_minus_arm, if_neg (by simp [hr]), if_pos hmal]

theorem ParseQueryWord_not_invalid_text {s : SearchServer} {t : Word}
    (hv : IsValidWord t = true) : ParseQueryWord s t ≠ .error .InvalidText := by
  cases t with
  | nil =>
    intro hcontra
    rw [show ParseQueryWord s [] = .error .InvalidMinusWord from rfl] at hcontra
    exact absurd hcontra (by simp)
  | cons c r =>
    by_cases hc : c = '-'
    · subst hc
      have hr : IsValidWord r = true := by
        rw [IsValidWord_cons] at hv
        exact (Bool.and_eq_true_iff.mp hv).2
      rw [ParseQueryWord_minus_arm, if_neg (by simp [hr])]
      split <;> simp
    · rw [ParseQueryWord_plain_arm hc, if_neg (by simp [hv])]
      split <;> simp

theorem ParseQueryWord_plus_token {s : SearchServer} {c : Char} {r : Word}
    (hv : IsValidWord (c :: r) = true) (hc : c ≠ '-') :
    ParseQueryWord s (c :: r) = .ok ⟨c :: r, false, IsStopWord s (c :: r)⟩ := by
  rw [ParseQueryWord_plain_arm hc, if_neg (by simp [hv]),
    if_neg (by simp [List.head?_cons, hc])]

theorem ParseQueryWord_minus_token {s : SearchServer} {c : Char} {r : Word}
    (hv : IsValidWord (c :: r) = true) (hc : c ≠ '-') :
    ParseQueryWord s ('-' :: c :: r) = .ok ⟨c :: r, true, IsStopWord s (c :: r)⟩ := by
  rw [ParseQueryWord_minus_arm, if_neg (by simp [hv]),
    if_neg (by simp [List.head?_cons, hc])]

theorem ParseQueryWord_error_cases {s : SearchServer} {t : Word} {e : EngineError}
    (h : ParseQueryWord s t = .error e) : e = .InvalidText ∨ e = .InvalidMinusWord := by
  cases t with
  | nil =>
    rw [show ParseQueryWord s ([] : Word) = .error .InvalidMinusWord from rfl] at h
    injection h with h
    exact Or.inr h.symm
  | cons c r =>
    by_cases hc : c = '-'
    · subst hc
      rw [ParseQueryWord_minus_arm] at h
      split at h
      · injection h with h
        exact Or.inl h.symm
      · split at h
        · injection h with h
          exact Or.inr h.symm
        · simp at h
    · rw [ParseQueryWord_plain_arm hc] at h
      split at h
      · injection h with h
        exact Or.inl h.symm
      · split at h
        · injection h with h
          exact Or.inr h.symm
        · simp at h

theorem ParseQueryGo_mono {s : SearchServer} :
    ∀ (ts : List Word) (q : Query) (Q : Query), ParseQueryGo s ts q = .ok Q →
      q.plus_words ⊆ Q.plus_words ∧ q.minus_words ⊆ Q.minus_words := by
  intro ts
  induction ts with
  | nil =>
    intro q Q h
    unfold ParseQueryGo at h
    injection h with h
    subst h
    exact ⟨fun a ha => ha, fun a ha => ha⟩
  | cons w rest ih =>
    intro q Q h
    unfold ParseQueryGo at h
    rcases hpw : ParseQueryWord s w with e | qw
    · rw [hpw] at h
      exact absurd h (by simp)
    · rw [hpw] at h
      rcases ih _ _ h with ⟨h1, h2⟩
      refine ⟨fun a ha => h1 ?_, fun a ha => h2 ?_⟩
      · split
        · exact ha
        · split
          · exact ha
          · exact subset_setInsert _ _ ha
      · split
        · exact ha
        · split
          · exact subset_setInsert _ _ ha
          · exact ha

theorem ParseQueryGo_retains {s : SearchServer} :
    ∀ (ts : List Word) (q : Query) (Q : Query) (t : Word) (qw : QueryWord),
      t ∈ ts → ParseQueryGo s ts q = .ok Q → ParseQueryWord s t = .ok qw →
      qw.is_stop = false →
      (qw.is_minus = true → qw.data ∈ Q.minus_words) ∧
      (qw.is_minus = false → qw.data ∈ Q.plus_words) := by
  intro ts
  induction ts with
  | nil =>
    intro q Q t qw ht
    simp at ht
  | cons w rest ih =>
    intro q Q t qw ht h hpw hstop
    unfold ParseQueryGo at h
    rcases List.mem_cons.mp ht with rfl | ht
    · rw [hpw] at h
      rcases ParseQueryGo_mono rest _ _ h with ⟨h1, h2⟩
      rw [hstop] at h1 h2
      simp only [Bool.false_eq_true, if_false] at h1 h2
      constructor
      · intro hm
        rw [hm] at h2
        simp only [if_true] at h2
        exact h2 (mem_setInsert_self _ _)
      · intro hm
        rw [hm] at h1
        simp only [Bool.false_eq_true, if_false] at h1
        exact h1 (mem_setInsert_self _ _)
    · rcases hpw2 : ParseQueryWord s w with e | qw2
      · rw [hpw2] at h
        exact absurd h (by simp)
      · rw [hpw2] at h
        exact ih _ _ t qw ht h hpw hstop

theorem ParseQueryGo_malformed {s : SearchServer} :
    ∀ (ts : List Word) (q : Query),
      (∀ t ∈ ts, IsValidWord t = true) →
      (∃ t ∈ ts, ∃ r, t = '-' :: r ∧ (r = [] ∨ r.head? = some '-')) →
      ParseQueryGo s ts q = .error .InvalidMinusWord := by
  intro ts
  induction ts with
  | nil =>
    intro q _ hmal
    simp at hmal
  | cons w rest ih =>
    intro q hval hmal
    rcases hmal with ⟨t, ht, r, rfl, hr⟩
    rcases List.mem_cons.mp ht with rfl | ht
    · unfold ParseQueryGo
      rw [ParseQueryWord_malformed (hval _ (by simp)) hr]
    · rcases hpw : ParseQueryWord s w with e | qw
      · unfold ParseQueryGo
        rw [hpw]
        rcases ParseQueryWord_error_cases hpw with rfl | rfl
        · exact absurd hpw (ParseQueryWord_not_invalid_text (hval w (by simp)))
        · rfl
      · unfold ParseQueryGo
        rw [hpw]
        exact ih _ (fun t' ht' => hval t' (by simp [ht'])) ⟨'-' :: r, ht, r, rfl, hr⟩

/-! ### Ingestion lemmas -/

theorem SplitIntoWordsNoStopGo_error_invalid_text {s : SearchServer} :
    ∀ {ts : List Word} {e : EngineError},
      SplitIntoWordsNoStopGo s ts = .error e → e = .InvalidText := by
  intro ts
  induction ts with
  | nil =>
    intro e h
    unfold SplitIntoWordsNoStopGo at h
    exact absurd h (by simp)
  | cons w rest ih =>
    intro e h
    unfold SplitIntoWordsNoStopGo at h
    split at h
    · injection h with h
      exact h.symm
    · rcases hr : SplitIntoWordsNoStopGo s rest with e' | ws
      · rw [hr] at h
        injection h with h
        subst h
        exact ih hr
      · rw [hr] at h
        exact absurd h (by simp)

theorem SplitIntoWordsNoStopGo_invalid {s : SearchServer} :
    ∀ {ts : List Word}, (∃ t ∈ ts, IsValidWord t = false) →
      SplitIntoWordsNoStopGo s ts = .error .InvalidText := by
  intro ts
  induction ts with
  | nil =>
    intro h
    simp at h
  | cons w rest ih =>
    rintro ⟨t, ht, hinv⟩
    unfold SplitIntoWordsNoStopGo
    rcases List.mem_cons.mp ht with rfl | ht
    · rw [if_pos (by simp [hinv])]
    · by_cases hw : IsValidWord w
      · rw [if_neg (by simp [hw]), ih ⟨t, ht, hinv⟩]
      · rw [if_pos (by simpa using hw)]

theorem SplitIntoWordsNoStopGo_all_stop {s : SearchServer} :
    ∀ {ts : List Word},
      (∀ t ∈ ts, IsValidWord t = true ∧ IsStopWord s t = true) →
      SplitIntoWordsNoStopGo s ts = .ok [] := by
  intro ts
  induction ts with
  | nil =>
    intro
    rfl
  | cons w rest ih =>
    intro h
    unfold SplitIntoWordsNoStopGo
    rw [if_neg (by simp [(h w (by simp)).1]), ih fun t ht => h t (by simp [ht])]
    simp [(h w (by simp)).2]

theorem AddDocument_bad_id {s : SearchServer} {id : Int} {text : Word}
    {st : DocumentStatus} {ratings : List Int}
    (h : id < 0 ∨ (alFind s.documents_ id).isSome) :
    AddDocument s id text st ratings = .error .DuplicateOrInvalidId := by
  unfold AddDocument
  rw [if_pos h]

theorem AddDocument_dup_error_elim {s : SearchServer} {id : Int} {text : Word}
    {st : DocumentStatus} {ratings : List Int}
    (h : AddDocument s id text st ratings = .error .DuplicateOrInvalidId) :
    id < 0 ∨ (alFind s.documents_ id).isSome := by
  by_contra hcon
  unfold AddDocument at h
  rw [if_neg hcon] at h
  rcases hsp : SplitIntoWordsNoStop s text with e | words
  · rw [hsp] at h
    injection h with h
    have := SplitIntoWordsNoStopGo_error_invalid_text hsp
    subst h
    exact absurd this (by simp)
  · rw [hsp] at h
    exact absurd h (by simp)

theorem AddDocument_ok_elim {s : SearchServer} {id : Int} {text : Word}
    {st : DocumentStatus} {ratings : List Int} {s' : SearchServer}
    (h : AddDocument s id text st ratings = .ok s') :
    ¬(id < 0 ∨ (alFind s.documents_ id).isSome) ∧
      ∃ words, SplitIntoWordsNoStop s text = .ok words ∧
        s' = { s with
          word_to_document_freqs_ :=
            words.foldl (fun m w => mapBump m w id (1 / (words.length : ℚ)))
              s.word_to_document_freqs_,
          documents_ := s.documents_ ++ [(id, ⟨ComputeAverageRating ratings, st⟩)],
          document_ids := s.document_ids ++ [id] } := by
  unfold AddDocument at h
  split at h
  · exact absurd h (by simp)
  · rename_i hni
    refine ⟨hni, ?_⟩
    rcases hsp : SplitIntoWordsNoStop s text with e | words
    · rw [hsp] at h
      exact absurd h (by simp)
    · rw [hsp] at h
      injection h with h
      exact ⟨words, rfl, h.symm⟩

theorem AddDocument_count {s : SearchServer} {id : Int} {text : Word}
    {st : DocumentStatus} {ratings : List Int} {s' : SearchServer}
    (h : AddDocument s id text st ratings = .ok s') :
    GetDocumentCount s' = GetDocumentCount s + 1 := by
  rcases AddDocument_ok_elim h with ⟨_, words, _, rfl⟩
  simp [GetDocumentCount]

/-! ### Map-update and well-formedness lemmas -/

theorem alFind_mapBump (m : List (Word × List (Int × ℚ))) (w : Word) (id : Int) (v : ℚ)
    (w' : Word) :
    alFind (mapBump m w id v) w' =
      if w' = w then some (bumpEntry ((alFind m w).getD []) id v) else alFind m w' := by
  induction m with
  | nil =>
    by_cases h : w' = w
    · subst h
      simp [mapBump, alFind]
    · have h2 : ¬(w = w') := fun hh => h hh.symm
      simp [mapBump, alFind, h, h2]
  | cons e rest ih =>
    by_cases hw : e.1 = w
    · by_cases h : w' = w
      · have he : e.1 = w' := hw.trans h.symm
        simp [mapBump, alFind, hw, h, he]
      · have h2 : ¬(w = w') := fun hh => h hh.symm
        have he : ¬(e.1 = w') := fun hh => h (hh.symm.trans hw)
        simp [mapBump, alFind, hw, h, h2, he]
    · by_cases h : w' = w
      · subst h
        simp [mapBump, alFind, hw, ih]
      · by_cases he : e.1 = w'
        · simp [mapBump, alFind, hw, h, he]
        · simp [mapBump, alFind, hw, h, he, ih]

theorem keys_bumpEntry (l : List (Int × ℚ)) (k : Int) (v : ℚ) :
    (bumpEntry l k v).map Prod.fst =
      if k ∈ l.map Prod.fst then l.map Prod.fst else l.map Prod.fst ++ [k] := by
  induction l with
  | nil => simp [bumpEntry]
  | cons e rest ih =>
    by_cases h : e.1 = k
    · subst h
      simp [bumpEntry]
    · have h' : ¬(k = e.1) := fun hh => h hh.symm
      simp only [bumpEntry, if_neg h, List.map_cons, ih, List.mem_cons, h', false_or]
      by_cases hk : k ∈ rest.map Prod.fst
      · rw [if_pos hk, if_pos hk]
      · rw [if_neg hk, if_neg hk]
        simp

theorem nodup_keys_bumpEntry {l : List (Int × ℚ)} {k : Int} {v : ℚ}
    (h : (l.map Prod.fst).Nodup) : ((bumpEntry l k v).map Prod.fst).Nodup := by
  rw [keys_bumpEntry]
  split
  · exact h
  · rename_i hk
    simp [List.nodup_append, h, hk]

theorem bumpEntry_ne_nil (l : List (Int × ℚ)) (k : Int) (v : ℚ) :
    bumpEntry l k v ≠ [] := by
  cases l with
  | nil => simp [bumpEntry]
  | cons e rest =>
    unfold bumpEntry
    split <;> simp

theorem val_bumpEntry_pos {l : List (Int × ℚ)} {k : Int} {v : ℚ}
    (hl : ∀ e ∈ l, 0 < e.2) (hv : 0 < v) : ∀ e ∈ bumpEntry l k v, 0 < e.2 := by
  induction l with
  | nil => simpa [bumpEntry] using hv
  | cons e rest ih =>
    by_cases h : e.1 = k
    · subst h
      simp only [bumpEntry, if_pos rfl]
      intro x hx
      rcases List.mem_cons.mp hx with h1 | h1
      · subst h1
        exact add_pos (hl e (by simp)) hv
      · exact hl x (by simp [h1])
    · simp only [bumpEntry, if_neg h]
      intro x hx
      rcases List.mem_cons.mp hx with h1 | h1
      · exact h1 ▸ hl e (by simp)
      · exact ih (fun y hy => hl y (by simp [hy])) x h1

theorem Wf_empty (sw : List Word) : Wf ⟨sw, [], [], []⟩ := by
  refine ⟨by simp, ?_⟩
  intro w posting h
  simp [alFind] at h

theorem Wf_AddDocument {s : SearchServer} {id : Int} {text : Word}
    {st : DocumentStatus} {ratings : List Int} {s' : SearchServer}
    (hwf : Wf s) (h : AddDocument s id text st ratings = .ok s') : Wf s' := by
  rcases AddDocument_ok_elim h with ⟨hni, words, hsp, rfl⟩
  have hid : id ∉ s.documents_.map Prod.fst := by
    rcases hf : alFind s.documents_ id with _ | d
    · exact (alFind_eq_none _ _).mp hf
    · exact absurd (Or.inr (by simp [hf])) hni
  constructor
  · have hkeys : (s.documents_ ++
        [(id, (⟨ComputeAverageRating ratings, st⟩ : DocumentData))]).map Prod.fst =
        s.documents_.map Prod.fst ++ [id] := by simp
    simp only [hkeys]
    simp [List.nodup_append, hwf.1, hid]
  · simp only
    have hv : words ≠ [] → 0 < 1 / (words.length : ℚ) := by
      intro hne
      have : 0 < words.length := List.length_pos.mpr hne
      positivity
    refine foldl_induction _ words s.word_to_document_freqs_
      (fun m => ∀ w posting, alFind m w = some posting →
        posting ≠ [] ∧ (posting.map Prod.fst).Nodup ∧
        ∀ e ∈ posting, 0 < e.2 ∧
          e.1 ∈ (s.documents_ ++
            [(id, (⟨ComputeAverageRating ratings, st⟩ : DocumentData))]).map Prod.fst)
      ?_ ?_
    · intro w posting hfind
      rcases hwf.2 w posting hfind with ⟨h1, h2, h3⟩
      exact ⟨h1, h2, fun e he => ⟨(h3 e he).1, by simp [(h3 e he).2]⟩⟩
    · intro m w hw hm
      intro w' posting' hfind'
      rw [alFind_mapBump] at hfind'
      split at hfind'
      · injection hfind' with hfind'
        subst hfind'
        rcases hf0 : alFind m w with _ | p0
        · refine ⟨bumpEntry_ne_nil _ _ _, ?_, ?_⟩
          · simp [Option.getD_none, bumpEntry]
          · simp only [Option.getD_none]
            intro e he
            simp only [bumpEntry, List.mem_singleton] at he
            subst he
            exact ⟨hv (List.ne_nil_of_mem hw), by simp⟩
        · simp only [Option.getD_some]
          rcases hm w p0 hf0 with ⟨_, h2, h3⟩
          refine ⟨bumpEntry_ne_nil _ _ _, nodup_keys_bumpEntry h2, ?_⟩
          intro e he
          constructor
          · exact val_bumpEntry_pos (fun x hx => (h3 x hx).1)
              (hv (List.ne_nil_of_mem hw)) e he
          · have hkey : e.1 ∈ (bumpEntry p0 id (1 / (words.length : ℚ))).map Prod.fst :=
              List.mem_map.mpr ⟨e, he, rfl⟩
            rcases (mem_keys_bumpEntry _ _ _ _).mp hkey with hk | hk
            · rcases List.mem_map.mp hk with ⟨x, hx, hxe⟩
              exact hxe ▸ (h3 x hx).2
            · simp [hk]
      · exact hm w' posting' hfind'

/-! ### Request-log lemmas -/

theorem pairwise_dropOldGo {t : Nat} :
    ∀ {l : List QueryResult} {n : Int},
      List.Pairwise (fun a b => a.timestamp < b.timestamp) l →
      List.Pairwise (fun a b => a.timestamp < b.timestamp) (dropOldGo t l n).1 := by
  intro l
  induction l with
  | nil =>
    intro n h
    exact h
  | cons e rest ih =>
    intro n h
    unfold dropOldGo
    split
    · exact ih (List.Pairwise.sublist (List.sublist_cons_self e rest) h)
    · exact h

theorem mem_dropOldGo {t : Nat} :
    ∀ {l : List QueryResult} {n : Int},
      List.Pairwise (fun a b => a.timestamp < b.timestamp) l →
      ∀ e, e ∈ (dropOldGo t l n).1 ↔ e ∈ l ∧ t - e.timestamp < min_in_day_ := by
  intro l
  induction l with
  | nil =>
    intro n _ e
    simp [dropOldGo]
  | cons f rest ih =>
    intro n h e
    unfold dropOldGo
    split
    · rename_i hold
      rw [ih (List.Pairwise.sublist (List.sublist_cons_self f rest) h) e]
      constructor
      · rintro ⟨h1, h2⟩
        exact ⟨by simp [h1], h2⟩
      · rintro ⟨h1, h2⟩
        rcases List.mem_cons.mp h1 with rfl | h1
        · omega
        · exact ⟨h1, h2⟩
    · rename_i hyoung
      constructor
      · intro h1
        refine ⟨h1, ?_⟩
        rcases List.mem_cons.mp h1 with rfl | h1
        · omega
        · have hts : f.timestamp < e.timestamp :=
            (List.pairwise_cons.mp h).1 e h1
          omega
      · exact fun h1 => h1.1

theorem count_dropOldGo {t : Nat} :
    ∀ {l : List QueryResult} {n : Int},
      n = (l.countP (fun e => decide (e.results = 0)) : Int) →
      (dropOldGo t l n).2 =
        ((dropOldGo t l n).1.countP (fun e => decide (e.results = 0)) : Int) := by
  intro l
  induction l with
  | nil =>
    intro n hn
    simpa [dropOldGo] using hn
  | cons f rest ih =>
    intro n hn
    unfold dropOldGo
    split
    · apply ih
      rw [List.countP_cons] at hn
      by_cases hf : f.results = 0
      · rw [if_pos (by simp [hf])] at hn
        rw [if_pos hf]
        push_cast at hn ⊢
        omega
      · rw [if_neg (by simp [hf])] at hn
        rw [if_neg hf]
        push_cast at hn ⊢
        omega
    · exact hn

theorem RQWf_ctor : RQWf RequestQueueCtor := by
  refine ⟨by simp [RequestQueueCtor], by simp [RequestQueueCtor], by simp [RequestQueueCtor]⟩

theorem RQWf_AddRequest {rq : RequestQueue} (hwf : RQWf rq) (r : Int) :
    RQWf (AddRequest rq r) := by
  rcases hwf with ⟨hsort, hwin, hcount⟩
  unfold AddRequest RQWf
  simp only
  constructor
  · rw [List.pairwise_append]
    refine ⟨pairwise_dropOldGo hsort, by simp, ?_⟩
    intro a ha b hb
    simp only [List.mem_singleton] at hb
    subst hb
    have hmem := (mem_dropOldGo hsort a).mp ha
    have := (hwin a hmem.1).1
    simp only
    omega
  · constructor
    · intro e he
      rcases List.mem_append.mp he with h1 | h1
      · have hmem := (mem_dropOldGo hsort e).mp h1
        have := (hwin e hmem.1).1
        have h2 := hmem.2
        constructor
        · omega
        · exact h2
      · simp only [List.mem_singleton] at h1
        subst h1
        simp [min_in_day_]
    · rw [List.countP_append, count_dropOldGo hcount]
      by_cases hr : r = 0
      · rw [if_pos hr]
        simp [hr]
      · rw [if_neg hr]
        simp [hr]

theorem RQWf_runQueue (l : List Int) : RQWf (runQueue l) := by
  unfold runQueue
  refine foldl_induction _ l RequestQueueCtor RQWf RQWf_ctor ?_
  intro rq r _ hwf
  exact RQWf_AddRequest hwf r

theorem AddRequest_time (rq : RequestQueue) (r : Int) :
    (AddRequest rq r).current_time_ = rq.current_time_ + 1 := rfl

theorem runQueue_time (l : List Int) : (runQueue l).current_time_ = l.length := by
  unfold runQueue
  suffices h : ∀ (init : RequestQueue),
      (l.foldl AddRequest init).current_time_ = init.current_time_ + l.length by
    simpa [RequestQueueCtor] using h RequestQueueCtor
  induction l with
  | nil => simp
  | cons r rest ih =>
    intro init
    simp only [List.foldl_cons, ih, AddRequest_time, List.length_cons]
    omega

theorem mem_AddRequest {rq : RequestQueue} (hwf : RQWf rq) (r : Int) (e : QueryResult) :
    e ∈ (AddRequest rq r).requests_ ↔
      (e ∈ rq.requests_ ∧ rq.current_time_ + 1 - e.timestamp < min_in_day_) ∨
        e = ⟨rq.current_time_ + 1, r⟩ := by
  unfold AddRequest
  simp only [List.mem_append, List.mem_singleton]
  rw [mem_dropOldGo hwf.1 e]

/-! ### Remaining helper lemmas -/

theorem FindTopDocuments_eq_ok {lg : ℚ → ℚ} {s : SearchServer} {raw_query : Word}
    {predict : Int → DocumentStatus → Int → Bool} {query : Query}
    (hv : IsValidWord raw_query = true) (hq : ParseQuery s raw_query = .ok query) :
    FindTopDocuments lg s raw_query predict =
      .ok ((sortDocuments (FindAllDocuments lg s query predict)).take
        MAX_RESULT_DOCUMENT_COUNT) := by
  unfold FindTopDocuments
  rw [if_neg (by simp [hv]), hq]

theorem alFind_append {α β : Type} [DecidableEq α] (l1 l2 : List (α × β)) (k : α) :
    alFind (l1 ++ l2) k =
      match alFind l1 k with
      | some b => some b
      | none => alFind l2 k := by
  induction l1 with
  | nil => simp [alFind]
  | cons e rest ih =>
    by_cases h : e.1 = k
    · simp [alFind, h]
    · simp [alFind, h, ih]

theorem AddDocument_serverAB :
    AddDocument emptyServer 0 ['a', ' ', 'b'] .ACTUAL [] = .ok serverAB := by
  rfl

theorem Wf_serverAB : Wf serverAB :=
  Wf_AddDocument (Wf_empty []) AddDocument_serverAB

/-! ### The claims -/

/-- C1: for every index state and every query accepted by the engine, the
list returned by `FindTopDocuments` has length at most 5 and each adjacent
pair is ordered by descending relevance, two documents whose relevances
differ by less than the comparator's fixed epsilon
(`std::numeric_limits<double>::epsilon()` = 2 ^ (-52), the code's instance of
the spec's "small fixed epsilon") being ordered by descending rating. -/
theorem claim_C1_top_sorted_capped (lg : ℚ → ℚ) (s : SearchServer)
    (raw_query : Word) (predict : Int → DocumentStatus → Int → Bool)
    (docs : List Document)
    (h : FindTopDocuments lg s raw_query predict = .ok docs) :
    docs.length ≤ 5 ∧
      List.Chain' (fun a b =>
        if |a.relevance - b.relevance| < dblEpsilon then b.rating ≤ a.rating
        else b.relevance < a.relevance) docs := by
  rcases FindTopDocuments_ok_elim h with ⟨_, query, _, rfl⟩
  constructor
  · rw [List.length_take]
    exact min_le_left _ _
  · have hch := (chain'_sortDocuments (FindAllDocuments lg s query predict)).take
      MAX_RESULT_DOCUMENT_COUNT
    refine List.Chain'.imp ?_ hch
    intro a b hab
    simp only [docComp] at hab
    by_cases hlt : |b.relevance - a.relevance| < dblEpsilon
    · rw [if_pos hlt] at hab
      rw [if_pos (by rwa [abs_sub_comm])]
      simpa using hab
    · rw [if_neg hlt] at hab
      rw [if_neg (by rwa [abs_sub_comm] at hlt)]
      simp only [decide_eq_false_iff_not, not_lt] at hab
      rcases lt_or_eq_of_le hab with h1 | h1
      · exact h1
      · exfalso
        apply hlt
        rw [h1, sub_self, abs_zero]
        unfold dblEpsilon
        positivity

/-- C1 witness: the empty index accepts the query `a` and returns the empty
list, which satisfies the cap and ordering. -/
theorem claim_C1_witness :
    ([] : List Document).length ≤ 5 ∧
      List.Chain' (fun a b =>
        if |a.relevance - b.relevance| < dblEpsilon then b.rating ≤ a.rating
        else b.relevance < a.relevance) ([] : List Document) :=
  claim_C1_top_sorted_capped lg0 emptyServer ['a'] predTrue [] rfl

/-- C2: in `FindTopDocuments` (i) every document of any minus-word posting is
absent from the output unconditionally, (ii) a document in no plus-word
posting never appears, and (iii) the predicate is consulted only at plus-word
posting entries: any predicate agreeing there yields the identical output. -/
theorem claim_C2_minus_exclusion_predicate_scope (lg : ℚ → ℚ) (s : SearchServer)
    (raw_query : Word) (predict : Int → DocumentStatus → Int → Bool)
    (query : Query) (docs : List Document)
    (hq : ParseQuery s raw_query = .ok query)
    (h : FindTopDocuments lg s raw_query predict = .ok docs) :
    (∀ w ∈ query.minus_words, ∀ p, alFind s.word_to_document_freqs_ w = some p →
      ∀ d ∈ docs, d.id ∉ p.map Prod.fst) ∧
    (∀ id : Int,
      (∀ w ∈ query.plus_words, ∀ p, alFind s.word_to_document_freqs_ w = some p →
        id ∉ p.map Prod.fst) →
      ∀ d ∈ docs, d.id ≠ id) ∧
    (∀ predict' : Int → DocumentStatus → Int → Bool,
      (∀ w ∈ query.plus_words, ∀ p, alFind s.word_to_document_freqs_ w = some p →
        ∀ e ∈ p, ∀ info, alFind s.documents_ e.1 = some info →
          predict e.1 info.status info.rating = predict' e.1 info.status info.rating) →
      FindTopDocuments lg s raw_query predict' = .ok docs) := by
  have hv : IsValidWord raw_query = true := (FindTopDocuments_ok_elim h).1
  refine ⟨?_, ?_, ?_⟩
  · intro w hw p hp d hd
    exact FindAllDocuments_minus_excluded hw hp (mem_FindTopDocuments h hq hd)
  · intro id hid d hd heq
    rcases FindAllDocuments_needs_plus (mem_FindTopDocuments h hq hd) with
      ⟨w, hw, p, hp, hmem⟩
    rw [heq] at hmem
    exact hid w hw p hp hmem
  · intro predict' hagree
    rw [FindTopDocuments_eq_ok hv hq,
      ← FindAllDocuments_pred_congr hagree, ← FindTopDocuments_eq_ok hv hq, h]

/-- C2 witness: on a server whose only document 0 contains the words `a` and
`b`, the query `a -b` (whose minus word `b` has document 0 in its posting
list) produces the empty output, and replacing the predicate by itself
reproduces it. -/
theorem claim_C2_witness :
    FindTopDocuments lg0 serverAB ['a', ' ', '-', 'b'] predTrue = .ok [] :=
  (claim_C2_minus_exclusion_predicate_scope lg0 serverAB ['a', ' ', '-', 'b']
    predTrue ⟨[['a']], [['b']]⟩ [] rfl rfl).2.2 predTrue
    fun _ _ _ _ _ _ _ _ => rfl

/-- C3: `AddDocument` fails with `DuplicateOrInvalidId` exactly when the id is
negative or already present (in the functional model a failing call returns
only the error, mirroring that the C++ throws before any mutation), and a
successful call increases `GetDocumentCount` by exactly 1. -/
theorem claim_C3_add_document_id_and_count (s : SearchServer) (document_id : Int)
    (document : Word) (status : DocumentStatus) (ratings : List Int) :
    (AddDocument s document_id document status ratings = .error .DuplicateOrInvalidId ↔
      document_id < 0 ∨ (alFind s.documents_ document_id).isSome) ∧
    (∀ s', AddDocument s document_id document status ratings = .ok s' →
      GetDocumentCount s' = GetDocumentCount s + 1) := by
  constructor
  · constructor
    · exact AddDocument_dup_error_elim
    · exact AddDocument_bad_id
  · intro s' h
    exact AddDocument_count h

/-- C3 witness: adding with id -1 fails with `DuplicateOrInvalidId`; adding a
fresh document raises the count from 0 to 1. -/
theorem claim_C3_witness :
    AddDocument emptyServer (-1) ['a'] .ACTUAL [] = .error .DuplicateOrInvalidId ∧
      GetDocumentCount serverAB = GetDocumentCount emptyServer + 1 :=
  ⟨(claim_C3_add_document_id_and_count emptyServer (-1) ['a'] .ACTUAL []).1.mpr
      (Or.inl (by decide)),
    (claim_C3_add_document_id_and_count emptyServer 0 ['a', ' ', 'b'] .ACTUAL []).2
      serverAB AddDocument_serverAB⟩

/-- C4: after any sequence of `AddRequest` calls the request log satisfies:
the clock advanced one tick per call, timestamps strictly increase, every
retained entry is younger than the 1440-tick window, the zero-result counter
equals the number of retained zero-result entries, and one more call retains
exactly the entries still inside the window plus the new entry (so an entry
whose age reaches 1440 — in particular a zero-result entry recorded 1440
ticks ago — is evicted). -/
theorem claim_C4_request_log_invariant (l : List Int) :
    (runQueue l).current_time_ = l.length ∧
    List.Chain' (fun a b => a.timestamp < b.timestamp) (runQueue l).requests_ ∧
    (∀ e ∈ (runQueue l).requests_,
      e.timestamp ≤ (runQueue l).current_time_ ∧
        (runQueue l).current_time_ - e.timestamp < min_in_day_) ∧
    GetNoResultRequests (runQueue l) =
      ((runQueue l).requests_.countP (fun e => decide (e.results = 0)) : Int) ∧
    (∀ (r : Int) (e : QueryResult), e ∈ (AddRequest (runQueue l) r).requests_ ↔
      (e ∈ (runQueue l).requests_ ∧
        (runQueue l).current_time_ + 1 - e.timestamp < min_in_day_) ∨
      e = ⟨(runQueue l).current_time_ + 1, r⟩) := by
  have hwf := RQWf_runQueue l
  exact ⟨runQueue_time l, hwf.1.chain', hwf.2.1, hwf.2.2,
    fun r e => mem_AddRequest hwf r e⟩

/-- C4 witness: after one recorded call at time 1, a second call at time 2
retains the old entry (age 1 < 1440) and appends the new one. -/
theorem claim_C4_witness :
    (⟨2, 5⟩ : QueryResult) ∈ (AddRequest (runQueue [0]) 5).requests_ :=
  ((claim_C4_request_log_invariant [0]).2.2.2.2 5 ⟨2, 5⟩).mpr (Or.inr rfl)

theorem MatchDocument_eq {s : SearchServer} {raw_query : Word} {query : Query}
    {document_id : Int} {info : DocumentData}
    (hv : IsValidWord raw_query = true)
    (hq : ParseQuery s raw_query = .ok query)
    (hid : alFind s.documents_ document_id = some info) :
    MatchDocument s raw_query document_id = .ok
      (if query.minus_words.any (fun w => hasPosting s w document_id) then []
       else query.plus_words.filter fun w => hasPosting s w document_id,
       info.status) := by
  unfold MatchDocument
  rw [if_neg (by simp [hv]), hq, hid]

/-- C5: for a query accepted by the engine and a document id present in the
index, `MatchDocument` returns the empty word list whenever some minus-word
of the query is present in that document, and otherwise exactly the set of
plus-words present in that document; in both cases paired with the
document's status. -/
theorem claim_C5_match_document (s : SearchServer) (raw_query : Word) (query : Query)
    (document_id : Int) (info : DocumentData)
    (hv : IsValidWord raw_query = true)
    (hq : ParseQuery s raw_query = .ok query)
    (hid : alFind s.documents_ document_id = some info) :
    ∃ matched_words,
      MatchDocument s raw_query document_id = .ok (matched_words, info.status) ∧
      ((∃ w ∈ query.minus_words, hasPosting s w document_id = true) →
        matched_words = []) ∧
      (¬(∃ w ∈ query.minus_words, hasPosting s w document_id = true) →
        ∀ w : Word, w ∈ matched_words ↔
          w ∈ query.plus_words ∧ hasPosting s w document_id = true) := by
  by_cases hany : query.minus_words.any (fun w => hasPosting s w document_id) = true
  · refine ⟨[], ?_, fun _ => rfl, ?_⟩
    · rw [MatchDocument_eq hv hq hid, if_pos hany]
    · intro hno
      exfalso
      rcases List.any_eq_true.mp hany with ⟨w, hw, hpost⟩
      exact hno ⟨w, hw, hpost⟩
  · refine ⟨query.plus_words.filter (fun w => hasPosting s w document_id), ?_, ?_, ?_⟩
    · rw [MatchDocument_eq hv hq hid, if_neg hany]
    · rintro ⟨w, hw, hpost⟩
      exact absurd (List.any_eq_true.mpr ⟨w, hw, hpost⟩) hany
    · intro _ w
      simp [List.mem_filter]

/-- C5 witness: on the server whose document 0 contains `a` and `b`, the
query `a -c` has no minus-word hit on document 0, so the matched words are
exactly the plus-words present (`a`), paired with status `ACTUAL`. -/
theorem claim_C5_witness :
    ∃ matched_words,
      MatchDocument serverAB ['a', ' ', '-', 'c'] 0 =
        .ok (matched_words, DocumentStatus.ACTUAL) ∧
      ((∃ w ∈ [['c']], hasPosting serverAB w 0 = true) → matched_words = []) ∧
      (¬(∃ w ∈ [['c']], hasPosting serverAB w 0 = true) →
        ∀ w : Word, w ∈ matched_words ↔
          w ∈ [['a']] ∧ hasPosting serverAB w 0 = true) :=
  claim_C5_match_document serverAB ['a', ' ', '-', 'c'] ⟨[['a']], [['c']]⟩ 0
    ⟨0, .ACTUAL⟩ rfl rfl rfl

/-- C6 counterexample: the single-token query `--\x01` is a malformed
minus-token in the claim's sense (after stripping the leading dash the
remainder starts with a dash), yet query parsing fails with `InvalidText`,
not `InvalidMinusWord`, because the validity check precedes the minus-format
check; `FindTopDocuments` likewise reports `InvalidText`. -/
theorem claim_C6_counterexample :
    (∃ t ∈ SplitIntoWords ['-', '-', Char.ofNat 1], ∃ r, t = '-' :: r ∧
      (r = [] ∨ r.head? = some '-')) ∧
    ParseQuery emptyServer ['-', '-', Char.ofNat 1] = .error .InvalidText ∧
    ParseQuery emptyServer ['-', '-', Char.ofNat 1] ≠ .error .InvalidMinusWord ∧
    FindTopDocuments lg0 emptyServer ['-', '-', Char.ofNat 1] predTrue =
      .error .InvalidText := by
  refine ⟨⟨['-', '-', Char.ofNat 1], by decide, ['-', Char.ofNat 1], rfl, by decide⟩,
    rfl, ?_, rfl⟩
  intro hcon
  have h0 : ParseQuery emptyServer ['-', '-', Char.ofNat 1] = .error .InvalidText := rfl
  rw [h0] at hcon
  injection hcon with h3
  exact EngineError.noConfusion h3

/-- C6 (amended): for every query whose text passes the character-validity
check (no code point below 32 anywhere — otherwise `InvalidText` preempts)
and which contains a malformed minus-token (a lone `-`, or `--…`), query
parsing fails with `InvalidMinusWord`, and `FindTopDocuments` propagates
this error for every state, so no relevance scoring occurs. -/
theorem claim_C6_amended_malformed_minus (s : SearchServer) (raw_query : Word)
    (lg : ℚ → ℚ) (predict : Int → DocumentStatus → Int → Bool)
    (hv : IsValidWord raw_query = true)
    (hmal : ∃ t ∈ SplitIntoWords raw_query, ∃ r, t = '-' :: r ∧
      (r = [] ∨ r.head? = some '-')) :
    ParseQuery s raw_query = .error .InvalidMinusWord ∧
    FindTopDocuments lg s raw_query predict = .error .InvalidMinusWord := by
  have hparse : ParseQuery s raw_query = .error .InvalidMinusWord := by
    unfold ParseQuery
    exact ParseQueryGo_malformed _ _ (mem_splitIntoWords_valid hv) hmal
  refine ⟨hparse, ?_⟩
  unfold FindTopDocuments
  rw [if_neg (by simp [hv]), hparse]

/-- C6 amended witness: the lone-dash query `-` fails with
`InvalidMinusWord` on the empty server. -/
theorem claim_C6_witness :
    ParseQuery emptyServer ['-'] = .error .InvalidMinusWord ∧
    FindTopDocuments lg0 emptyServer ['-'] predTrue = .error .InvalidMinusWord :=
  claim_C6_amended_malformed_minus emptyServer ['-'] lg0 predTrue (by decide)
    ⟨['-'], by decide, [], rfl, Or.inl rfl⟩

/-- C7: the validity check rejects a token iff some character has code point
below 32 (0 is invalid, 32 — the space — is valid); a document text with an
invalid token makes `AddDocument` (called with a fresh non-negative id) fail
with `InvalidText` rather than dropping the token, and a query text failing
the check makes `FindTopDocuments` fail with `InvalidText`. -/
theorem claim_C7_token_validity (s : SearchServer) (document_id : Int)
    (document raw_query : Word) (status : DocumentStatus) (ratings : List Int)
    (lg : ℚ → ℚ) (predict : Int → DocumentStatus → Int → Bool) :
    (∀ t : Word, IsValidWord t = false ↔ ∃ c ∈ t, c.toNat < 32) ∧
    IsValidWord [Char.ofNat 0] = false ∧
    IsValidWord [' '] = true ∧
    ((∃ t ∈ SplitIntoWords document, IsValidWord t = false) →
      ¬(document_id < 0 ∨ (alFind s.documents_ document_id).isSome) →
      AddDocument s document_id document status ratings = .error .InvalidText) ∧
    (IsValidWord raw_query = false →
      FindTopDocuments lg s raw_query predict = .error .InvalidText) := by
  refine ⟨?_, by decide, by decide, ?_, ?_⟩
  · intro t
    constructor
    · intro hf
      by_contra hcon
      push_neg at hcon
      have ht : IsValidWord t = true := by
        simp only [IsValidWord, List.all_eq_true]
        intro c hc
        simpa using hcon c hc
      rw [ht] at hf
      exact absurd hf (by simp)
    · rintro ⟨c, hc, hlt⟩
      cases hiv : IsValidWord t
      · rfl
      · simp only [IsValidWord, List.all_eq_true] at hiv
        have := hiv c hc
        simp at this
        omega
  · intro hbad hni
    unfold AddDocument
    rw [if_neg hni]
    have hsp : SplitIntoWordsNoStop s document = .error .InvalidText :=
      SplitIntoWordsNoStopGo_invalid hbad
    rw [hsp]
  · intro hbad
    unfold FindTopDocuments
    rw [if_pos (by simp [hbad])]

/-- C7 witness: the one-character control token `\x01` makes both ingestion
and querying fail with `InvalidText` on the empty server. -/
theorem claim_C7_witness :
    AddDocument emptyServer 0 [Char.ofNat 1] .ACTUAL [] = .error .InvalidText ∧
    FindTopDocuments lg0 emptyServer [Char.ofNat 1] predTrue =
      .error .InvalidText :=
  ⟨(claim_C7_token_validity emptyServer 0 [Char.ofNat 1] [Char.ofNat 1] .ACTUAL []
      lg0 predTrue).2.2.2.1 ⟨[Char.ofNat 1], by decide, by decide⟩ (by decide),
    (claim_C7_token_validity emptyServer 0 [Char.ofNat 1] [Char.ofNat 1] .ACTUAL []
      lg0 predTrue).2.2.2.2 (by decide)⟩

/-- C8: on a well-formed server state, for any logarithm model that is
non-negative on arguments at least 1 (as the real `ln` is), every relevance
value in a successful `FindTopDocuments` output is non-negative: term
frequencies are positive and each posting list is no longer than the
document table, so every accumulated `tf * idf` contribution is
non-negative. -/
theorem claim_C8_relevance_nonneg (lg : ℚ → ℚ) (s : SearchServer)
    (raw_query : Word) (predict : Int → DocumentStatus → Int → Bool)
    (docs : List Document)
    (hwf : Wf s) (hlg : ∀ q : ℚ, 1 ≤ q → 0 ≤ lg q)
    (h : FindTopDocuments lg s raw_query predict = .ok docs) :
    ∀ d ∈ docs, 0 ≤ d.relevance := by
  intro d hd
  rcases FindTopDocuments_ok_elim h with ⟨hv, query, hq, rfl⟩
  exact FindAllDocuments_relevance_nonneg hwf hlg
    ((mem_sortDocuments _ _).mp (List.take_subset _ _ hd))

/-- C8 witness: querying `a` on the two-word server returns document 0 with
relevance (1/2) * lg0(1/1), which is non-negative. -/
theorem claim_C8_witness :
    0 ≤ ((⟨0, 1 / 2 * ComputeWordInverseDocumentFreq lg0 serverAB ['a'], 0⟩ :
      Document)).relevance :=
  claim_C8_relevance_nonneg lg0 serverAB ['a'] predTrue
    [⟨0, 1 / 2 * ComputeWordInverseDocumentFreq lg0 serverAB ['a'], 0⟩]
    Wf_serverAB (fun _ _ => le_refl 0) rfl _ (by simp)

/-- C9: adding a document whose tokens are all stop words (or whose text is
empty) under a fresh non-negative id succeeds, stores no posting (so the
division `1/0` arising from a zero word count is never recorded), records
the document in the metadata table, raises the count by one, and the
document never appears in any `FindTopDocuments` output on the new state. -/
theorem claim_C9_all_stop_document (s : SearchServer) (document_id : Int)
    (document : Word) (status : DocumentStatus) (ratings : List Int)
    (hwf : Wf s) (hid0 : 0 ≤ document_id)
    (hfresh : alFind s.documents_ document_id = none)
    (htoks : ∀ t ∈ SplitIntoWords document,
      IsValidWord t = true ∧ IsStopWord s t = true) :
    ∃ s', AddDocument s document_id document status ratings = .ok s' ∧
      s'.word_to_document_freqs_ = s.word_to_document_freqs_ ∧
      GetDocumentCount s' = GetDocumentCount s + 1 ∧
      (alFind s'.documents_ document_id).isSome ∧
      ∀ (lg : ℚ → ℚ) (raw_query : Word)
        (predict : Int → DocumentStatus → Int → Bool) (docs : List Document),
        FindTopDocuments lg s' raw_query predict = .ok docs →
        ∀ d ∈ docs, d.id ≠ document_id := by
  have hni : ¬(document_id < 0 ∨ (alFind s.documents_ document_id).isSome) := by
    simp [hfresh]
    omega
  have hsp : SplitIntoWordsNoStop s document = .ok [] :=
    SplitIntoWordsNoStopGo_all_stop htoks
  have hadd : AddDocument s document_id document status ratings = .ok
      { s with
        word_to_document_freqs_ := s.word_to_document_freqs_,
        documents_ := s.documents_ ++
          [(document_id, ⟨ComputeAverageRating ratings, status⟩)],
        document_ids := s.document_ids ++ [document_id] } := by
    unfold AddDocument
    rw [if_neg hni, hsp]
    rfl
  refine ⟨_, hadd, rfl, by simp [GetDocumentCount], ?_, ?_⟩
  · rw [alFind_append, hfresh]
    simp [alFind]
  · intro lg raw_query predict docs h d hd heq
    rcases FindTopDocuments_ok_elim h with ⟨hv, query, hq, rfl⟩
    rcases FindAllDocuments_needs_plus
      ((mem_sortDocuments _ _).mp (List.take_subset _ _ hd)) with
      ⟨w, hw, p, hp, hmem⟩
    rcases List.mem_map.mp hmem with ⟨x, hx, hxe⟩
    have hdoc := ((hwf.2 w p hp).2.2 x hx).2
    rw [hxe, heq] at hdoc
    exact (alFind_eq_none _ _).mp hfresh hdoc

/-- C9 witness: adding document 1 with empty text to the two-word server
succeeds, leaves the postings untouched, and the document can never be
returned. -/
theorem claim_C9_witness :
    ∃ s', AddDocument serverAB 1 [] .ACTUAL [] = .ok s' ∧
      s'.word_to_document_freqs_ = serverAB.word_to_document_freqs_ ∧
      GetDocumentCount s' = GetDocumentCount serverAB + 1 ∧
      (alFind s'.documents_ 1).isSome ∧
      ∀ (lg : ℚ → ℚ) (raw_query : Word)
        (predict : Int → DocumentStatus → Int → Bool) (docs : List Document),
        FindTopDocuments lg s' raw_query predict = .ok docs →
        ∀ d ∈ docs, d.id ≠ 1 :=
  claim_C9_all_stop_document serverAB 1 [] .ACTUAL [] Wf_serverAB (by decide) rfl
    (by intro t ht; simp [SplitIntoWords, splitIntoWordsGo] at ht)

/-- C10: when the same token occurs in a query both bare and with a leading
dash, the parsed query retains it in both the plus and the minus set, and in
`FindTopDocuments` the minus classification wins: no document of that
token's posting list is returned. -/
theorem claim_C10_plus_minus_same_token (lg : ℚ → ℚ) (s : SearchServer)
    (raw_query : Word) (predict : Int → DocumentStatus → Int → Bool)
    (query : Query) (docs : List Document) (w : Word)
    (hq : ParseQuery s raw_query = .ok query)
    (h : FindTopDocuments lg s raw_query predict = .ok docs)
    (hplus : w ∈ SplitIntoWords raw_query)
    (hminus : ('-' :: w) ∈ SplitIntoWords raw_query)
    (hhead : w.head? ≠ some '-')
    (hstop : IsStopWord s w = false) :
    w ∈ query.plus_words ∧ w ∈ query.minus_words ∧
      ∀ p, alFind s.word_to_document_freqs_ w = some p →
        ∀ d ∈ docs, d.id ∉ p.map Prod.fst := by
  have hv : IsValidWord raw_query = true := (FindTopDocuments_ok_elim h).1
  have hvw : IsValidWord w = true := mem_splitIntoWords_valid hv w hplus
  obtain ⟨c, r, rfl⟩ : ∃ c r, w = c :: r := by
    cases w with
    | nil => exact absurd rfl (mem_splitIntoWordsGo_ne_nil raw_query [] [] hplus)
    | cons c r => exact ⟨c, r, rfl⟩
  have hc : c ≠ '-' := by
    intro hcontra
    subst hcontra
    exact hhead rfl
  have hqgo : ParseQueryGo s (SplitIntoWords raw_query) ⟨[], []⟩ = .ok query := hq
  have hplusmem : (c :: r) ∈ query.plus_words := by
    have := ParseQueryGo_retains (SplitIntoWords raw_query) ⟨[], []⟩ query
      (c :: r) ⟨c :: r, false, IsStopWord s (c :: r)⟩ hplus hqgo
      (ParseQueryWord_plus_token hvw hc) (by simpa using hstop)
    exact this.2 rfl
  have hminusmem : (c :: r) ∈ query.minus_words := by
    have := ParseQueryGo_retains (SplitIntoWords raw_query) ⟨[], []⟩ query
      ('-' :: c :: r) ⟨c :: r, true, IsStopWord s (c :: r)⟩ hminus hqgo
      (ParseQueryWord_minus_token hvw hc) (by simpa using hstop)
    exact this.1 rfl
  refine ⟨hplusmem, hminusmem, ?_⟩
  intro p hp d hd
  exact FindAllDocuments_minus_excluded hminusmem hp (mem_FindTopDocuments h hq hd)

/-- C10 witness: on the two-word server the query `a -a` retains `a` as both
a plus- and a minus-word. -/
theorem claim_C10_witness :
    (['a'] : Word) ∈ [[('a' : Char)]] ∧ (['a'] : Word) ∈ [[('a' : Char)]] :=
  ⟨(claim_C10_plus_minus_same_token lg0 serverAB ['a', ' ', '-', 'a'] predTrue
      ⟨[['a']], [['a']]⟩ [] ['a'] rfl rfl (by decide) (by decide) (by decide) rfl).1,
    (claim_C10_plus_minus_same_token lg0 serverAB ['a', ' ', '-', 'a'] predTrue
      ⟨[['a']], [['a']]⟩ [] ['a'] rfl rfl (by decide) (by decide) (by decide) rfl).2.1⟩

end SearchSrv
